import Mathlib

/-!
Verification development for the PDF-OCR-RENAME watcher (`app.py`).

Python strings are embedded as `List Char` (`Str`); `\d` is modelled as the
ASCII digits actually produced by the OCR text, `[A-Z]` as ASCII uppercase.
Regular-expression matching is embedded by enumerating, in Python's
backtracking (leftmost, greedy, ordered-alternation) order, every way a
pattern component can consume a prefix of the input; the engine's result is
the head of that list.  The filesystem is embedded as the list of existing
file paths plus the list of existing directories; `os.rename` and
`shutil.move` both remove the source path and add the destination path,
replacing a pre-existing destination (POSIX rename semantics).

Note on the source: lines 154-173 of `app.py` have an `else:` (line 171)
whose indentation does not parse; as the accompanying design notes state,
the evident intent is rename-on-match / pass-through-on-no-match, i.e.
lines 155-170 belong to the `if matches:` branch and lines 172-173 to its
`else`.  That unique repair is what `process_pdf` below embeds.
-/

/-- Python strings are modelled as their character lists. -/
abbrev Str := List Char

/-- ASCII uppercase letter, the character class `[A-Z]`. -/
def isUp (c : Char) : Bool := 'A' ≤ c && c ≤ 'Z'

/-- ASCII digit, the character class `\d` (on the ASCII text at hand). -/
def isDig (c : Char) : Bool := c.isDigit

/-- Case-insensitive character comparison, for `re.IGNORECASE`. -/
def ciEq (a b : Char) : Bool := a.toLower == b.toLower

/-- Python `str.zfill n`: left-pad with `'0'` to length `n`
(a leading sign, which never occurs here, is kept in front). -/
def zfill (n : Nat) (s : Str) : Str :=
  if n ≤ s.length then s
  else
    match s with
    | [] => List.replicate n '0'
    | c :: r =>
      if c = '+' ∨ c = '-' then c :: (List.replicate (n - s.length) '0' ++ r)
      else List.replicate (n - s.length) '0' ++ s

/-- Python `str.replace a b` for single characters: substitute every
occurrence of `a` by `b`. -/
def replCh (a b : Char) (s : Str) : Str :=
  s.map (fun c => if c = a then b else c)

/-- Lines 126-127 of `app.py`: the chained
`.replace("O","0").replace("I","1").replace("S","5").replace("B","8").replace("Z","2").replace("G","6")`. -/
def replaceConfusions (s : Str) : Str :=
  replCh 'G' '6' (replCh 'Z' '2' (replCh 'B' '8' (replCh 'S' '5'
    (replCh 'I' '1' (replCh 'O' '0' s)))))

/-! ### Regex embedding: ordered alternative lists

A matcher sends an input string to the list of `(consumed, rest)` pairs it
can produce, ordered exactly as Python's backtracking engine explores them
(greedy repetitions longest first, optional elements present first,
alternations in written order).  The engine's answer is the head. -/

/-- Alternatives of a greedy bounded repetition `p{1,n}`: every nonempty
`p`-prefix of the input of length at most `n`, longest first. -/
def repAlts (p : Char → Bool) (n : Nat) (s : Str) : List (Str × Str) :=
  let run := (s.takeWhile p).take n
  (List.range run.length).map
    (fun i => (run.take (run.length - i), run.drop (run.length - i) ++ s.drop run.length))

/-- Alternatives of an optional literal character `c?`: taken first, then
skipped. -/
def optAlts (ch : Char) (s : Str) : List (Str × Str) :=
  (match s with
   | a :: r => if a = ch then [([a], r)] else []
   | [] => []) ++ [([], s)]

/-- Alternatives of an optional character-class element such as `\d?`. -/
def optClsAlts (p : Char → Bool) (s : Str) : List (Str × Str) :=
  (match s with
   | a :: r => if p a then [([a], r)] else []
   | [] => []) ++ [([], s)]

/-- Alternatives of a mandatory literal character. -/
def litAlts (ch : Char) (s : Str) : List (Str × Str) :=
  match s with
  | a :: r => if a = ch then [([a], r)] else []
  | [] => []

/-- Sequencing of two matchers, depth-first (Python's backtracking order). -/
def seqA (f g : Str → List (Str × Str)) (s : Str) : List (Str × Str) :=
  (f s).flatMap (fun cr => (g cr.2).map (fun dr => (cr.1 ++ dr.1, dr.2)))

/-- Case-insensitively strip a literal token from the front of the input,
returning the actually consumed characters and the rest. -/
def ciStrip : Str → Str → Option (Str × Str)
  | [], s => some ([], s)
  | _ :: _, [] => none
  | t :: ts, a :: s =>
    if ciEq a t then (ciStrip ts s).map (fun cr => (a :: cr.1, cr.2)) else none

/-- Pointwise case-insensitive equality of two strings. -/
def ciListEq : Str → Str → Bool
  | [], [] => true
  | a :: as, b :: bs => ciEq a b && ciListEq as bs
  | _, _ => false

/-- The literal tokens of the discovery pattern on line 151, in the written
alternation order `P0|PO|SPO|RNWS|SGR|SSR`. -/
def candTokens : List Str :=
  ["P0".data, "PO".data, "SPO".data, "RNWS".data, "SGR".data, "SSR".data]

/-- Alternatives of the token alternation, case-insensitive, in order. -/
def tokAlts (s : Str) : List (Str × Str) :=
  candTokens.filterMap (fun t => ciStrip t s)

/-- Alternatives of the whole discovery pattern of line 151:
`(?:P0|PO|SPO|RNWS|SGR|SSR) ?\d?-?\d{1,2}-\d{1,4}` with `re.IGNORECASE`. -/
def candAlts : Str → List (Str × Str) :=
  seqA tokAlts (seqA (optAlts ' ') (seqA (optClsAlts isDig) (seqA (optAlts '-')
    (seqA (repAlts isDig 2) (seqA (litAlts '-') (repAlts isDig 4))))))

/-- One scan step of `re.findall`: the leftmost-greedy match at the current
position, if any. -/
def candMatchAt (s : Str) : Option (Str × Str) := (candAlts s).head?

/-- The scan loop of `re.findall` (fuel = remaining length; every match
consumes at least the token, so the fuel is never the binding constraint). -/
def findallAux : Nat → Str → List Str
  | 0, _ => []
  | fuel + 1, s =>
    match s with
    | [] => []
    | c :: cs =>
      match candMatchAt (c :: cs) with
      | some (m, r) => m :: findallAux fuel r
      | none => findallAux fuel cs

/-- Line 151: `re.findall(r'(?:P0|PO|SPO|RNWS|SGR|SSR) ?\d?-?\d{1,2}-\d{1,4}', text, re.IGNORECASE)`. -/
def findallCand (s : Str) : List Str := findallAux s.length s

/-! ### `autocorrect_match` (lines 105-135) -/

/-- Lines 106-117: strip spaces, then the prefix-substitution ladder
(`P0-`, `PQ-`, `RNW-`, `5P0-`, `56R-`, first match wins). -/
def stripAndSub (m0 : Str) : Str :=
  let m := m0.filter (fun c => !(c == ' '))
  if "P0-".data.isPrefixOf m then "PO".data ++ m.drop 2
  else if "PQ-".data.isPrefixOf m then "PO".data ++ m.drop 2
  else if "RNW-".data.isPrefixOf m then "RNWS".data ++ m.drop 3
  else if "5P0-".data.isPrefixOf m then "SPO".data ++ m.drop 3
  else if "56R-".data.isPrefixOf m then "SGR".data ++ m.drop 3
  else m

/-- Alternatives of the re-parse pattern of line 119,
`([A-Z]+)[-]?(\d{1,2})[-]?(\d{1,4})` (anchored at the start, free at the
end), each with its three capture groups. -/
def reParseAlts (s : Str) : List ((Str × Str × Str) × Str) :=
  (repAlts isUp s.length s).flatMap (fun g1 =>
    (optAlts '-' g1.2).flatMap (fun o1 =>
      (repAlts isDig 2 o1.2).flatMap (fun g2 =>
        (optAlts '-' g2.2).flatMap (fun o2 =>
          (repAlts isDig 4 o2.2).map (fun g3 =>
            ((g1.1, g2.1, g3.1), g3.2))))))

/-- Line 119: `re.match(r'([A-Z]+)[-]?(\d{1,2})[-]?(\d{1,4})', match)`,
returning the three groups of the leftmost-greedy parse. -/
def reParse (s : Str) : Option (Str × Str × Str) :=
  (reParseAlts s).head?.map (fun a => a.1)

/-- Line 129's prefix list `["PO", "SPO", "RNWS", "SGR", "SSR"]`. -/
def lockTokens : List Str :=
  ["PO".data, "SPO".data, "RNWS".data, "SGR".data, "SSR".data]

/-- Lines 105-135: `autocorrect_match`.  Strip whitespace, substitute known
prefix misreads, re-parse; on success zero-pad the numeric groups, apply the
digit-confusion table to both, force a leading `2` on the middle group for
the known prefixes and reassemble; on re-parse failure return the
stripped-and-substituted string. -/
def autocorrect_match (m0 : Str) : Str :=
  let m := stripAndSub m0
  match reParse m with
  | some (pfx, gr2, gr3) =>
    let second0 := replaceConfusions (zfill 2 gr2)
    let last := replaceConfusions (zfill 4 gr3)
    let second := if lockTokens.contains pfx then '2' :: second0.drop 1 else second0
    pfx ++ '-' :: second ++ '-' :: last
  | none => m

/-- The variant of `autocorrect_match` with the two digit-confusion
replacement lines (126-127) removed, for the refinement claim. -/
def autocorrect_match_plain (m0 : Str) : Str :=
  let m := stripAndSub m0
  match reParse m with
  | some (pfx, gr2, gr3) =>
    let second0 := zfill 2 gr2
    let last := zfill 4 gr3
    let second := if lockTokens.contains pfx then '2' :: second0.drop 1 else second0
    pfx ++ '-' :: second ++ '-' :: last
  | none => m

/-- Decides the canonical form `^[A-Z]+-\d{2}-\d{4}$`. -/
def isCanonical (s : Str) : Bool :=
  let p := s.takeWhile isUp
  decide (1 ≤ p.length) &&
    (match s.drop p.length with
     | '-' :: a :: b :: '-' :: c :: d :: e :: f :: [] =>
       isDig a && isDig b && isDig c && isDig d && isDig e && isDig f
     | _ => false)

/-- The language of the discovery pattern of line 151 over the uppercased
alphabet, i.e. the possible elements of `matches` after line 152's
`.upper()`: a literal token, an optional space, an optional digit, an
optional dash, one or two digits, a dash, and one to four digits. -/
def UCand (m : Str) : Prop :=
  ∃ t sp ed dsh d1 d2,
    t ∈ candTokens ∧
    (sp = ([] : Str) ∨ sp = [' ']) ∧
    (ed = ([] : Str) ∨ ∃ d, isDig d = true ∧ ed = [d]) ∧
    (dsh = ([] : Str) ∨ dsh = ['-']) ∧
    d1.all isDig = true ∧ 1 ≤ d1.length ∧ d1.length ≤ 2 ∧
    d2.all isDig = true ∧ 1 ≤ d2.length ∧ d2.length ≤ 4 ∧
    m = t ++ sp ++ ed ++ dsh ++ d1 ++ '-' :: d2

/-! ### Filesystem model and the classification stage (lines 137-180) -/

/-- The filesystem: the existing file paths and the existing directories. -/
structure FS where
  files : List Str
  dirs : List Str
deriving DecidableEq

/-- `os.path.exists` on a file path. -/
def FS.exists? (fs : FS) (p : Str) : Bool := fs.files.contains p

/-- `os.rename` / `shutil.move` onto an explicit destination path: the
source path disappears, the destination path (replacing any previous file
there, POSIX rename semantics) appears. -/
def FS.move (fs : FS) (src dst : Str) : FS :=
  ⟨dst :: ((fs.files.erase src).erase dst), fs.dirs⟩

/-- `os.path.join d f` for a directory and a simple name. -/
def pathJoin (d f : Str) : Str := if d.isEmpty then f else d ++ '/' :: f

/-- `os.path.basename`: the part after the last `/`. -/
def basename (p : Str) : Str := (p.reverse.takeWhile (fun c => !(c == '/'))).reverse

/-- `os.path.dirname`: the part before the last `/` (empty if none). -/
def dirname (p : Str) : Str :=
  ((p.reverse.dropWhile (fun c => !(c == '/'))).drop 1).reverse

/-- The `final-output` directory name. -/
def finalOutputDir : Str := "final-output".data

/-- The `ERROR` quarantine directory name. -/
def errorDir : Str := "ERROR".data

/-- Line 165/167's candidate collision name: `final_name[:-4] + f'({num}).pdf'`. -/
def numName (fn : Str) (n : Nat) : Str :=
  fn.take (fn.length - 4) ++ '(' :: (Nat.repr n).data ++ ')' :: ".pdf".data

/-- Lines 164-166's `while` loop: starting at `num`, the first `n` whose
`final-output/final_name[:-4](n).pdf` does not exist.  The fuel is one more
than the number of existing files, which (the probed names being pairwise
distinct) always suffices. -/
def firstFreeFrom (fs : FS) (fn : Str) : Nat → Nat → Nat
  | 0, n => n
  | fuel + 1, n =>
    if fs.exists? (pathJoin finalOutputDir (numName fn n)) then
      firstFreeFrom fs fn fuel (n + 1)
    else n

/-- Lines 163-167: collision resolution for a target name in `final-output`. -/
def probeName (fs : FS) (fn : Str) : Str :=
  if fs.exists? (pathJoin finalOutputDir fn) then
    numName fn (firstFreeFrom fs fn (fs.files.length + 1) 1)
  else fn

/-- Lines 158-161: join the codes with `_`, append `.pdf`, and truncate to
`150 - 4` characters (re-appending `.pdf`) if the result is longer. -/
def mkFinalName (ms : List Str) : Str :=
  let fn := List.intercalate "_".data ms ++ ".pdf".data
  if 150 - 4 < fn.length then fn.take (150 - 4) ++ ".pdf".data else fn

/-- Ascending insertion into a lexicographically sorted list of strings. -/
def insertSorted (x : Str) : List Str → List Str
  | [] => [x]
  | y :: ys => if decide (x ≤ y) then x :: y :: ys else y :: insertSorted x ys

/-- `list(set(matches))` followed by `matches.sort()`: the distinct elements
in ascending lexicographic (code-point) order. -/
def sortStrs (ms : List Str) : List Str :=
  (ms.eraseDups).foldr insertSorted []

/-- The points of the `try` block (lines 149-173) at which an exception can
strike: during text extraction / code parsing (before any file operation),
at the `os.rename` of line 168, at the `shutil.move` of line 169 or 172, or
not at all.  A label whose step is not reached means no failure occurs. -/
inductive FailPoint
  | atExtract
  | atRename
  | atMove
  | noFail
deriving DecidableEq

/-- Lines 174-180, the `except` handler: if the original path still exists,
create `ERROR` on demand and move the file there under its basename;
otherwise do nothing. -/
def quarantine (fs : FS) (path : Str) : FS :=
  if fs.exists? path then
    let fs1 : FS := if fs.dirs.contains errorDir then fs else ⟨fs.files, errorDir :: fs.dirs⟩
    fs1.move path (pathJoin errorDir (basename path))
  else fs

/-- The final name the classification stage computes for a file: the probed
code-derived name when codes were found, the original basename otherwise
(statement-level helper used to phrase the theorems). -/
def classifyName (fs : FS) (text : Str) (path : Str) : Str :=
  let ms := (findallCand text).map (List.map Char.toUpper)
  if ms.isEmpty then basename path
  else probeName fs (mkFinalName (sortStrs (ms.map autocorrect_match)))

/-- Lines 143-180, `process_pdf` (with line 171's `else` attached to
`if matches:` as the design notes direct): for a lowercase-`.pdf` path,
extract the text, find and normalize the codes; if any were found compute
the joined, truncated, collision-probed name, rename in place and move into
`final-output`, otherwise move the file to `final-output` under its
original basename; any exception diverts the file to the quarantine
handler.  Paths not ending in `.pdf` are untouched. -/
def process_pdf (fs : FS) (path : Str) (text : Str) (fp : FailPoint) : FS :=
  if ".pdf".data.isSuffixOf path then
    if fp = FailPoint.atExtract then quarantine fs path
    else
      let ms := (findallCand text).map (List.map Char.toUpper)
      if ms.isEmpty then
        if fp = FailPoint.atMove then quarantine fs path
        else fs.move path (pathJoin finalOutputDir (basename path))
      else
        let final_name := probeName fs (mkFinalName (sortStrs (ms.map autocorrect_match)))
        if fp = FailPoint.atRename then quarantine fs path
        else
          let fs1 := fs.move path (pathJoin (dirname path) final_name)
          if fp = FailPoint.atMove then quarantine fs1 path
          else fs1.move (pathJoin (dirname path) final_name)
                 (pathJoin finalOutputDir final_name)
  else fs

/-- Line 39's `PATTERNS = ['*.pdf', '*.PDF']` as the acceptance test the
watchdog handler applies to a created path. -/
def patternsAccept (path : Str) : Bool :=
  ".pdf".data.isSuffixOf path || ".PDF".data.isSuffixOf path

/-! ### The readiness gate (lines 54-67) -/

/-- Line 37's default retry budget `OCR_RETRIES_LOADING_FILE = 5`. -/
def RETRIES_LOADING_FILE : Nat := 5

/-- Lines 56-67: the retry loop of `wait_for_file_ready`.  `openOk k` tells
whether the `k`-th open attempt (0-based) succeeds, i.e. raises neither
`FileNotFoundError` nor `pikepdf.PdfError`; the result carries the outcome
and the number of intervals slept (one after each failed attempt). -/
def waitLoop (openOk : Nat → Bool) (attempt : Nat) : Nat → Bool × Nat
  | 0 => (false, 0)
  | retries + 1 =>
    if openOk attempt then (true, 0)
    else
      let r := waitLoop openOk (attempt + 1) retries
      (r.1, r.2 + 1)

/-- Lines 54-67: `wait_for_file_ready` with the default budget of 5. -/
def wait_for_file_ready (openOk : Nat → Bool) : Bool × Nat :=
  waitLoop openOk 0 RETRIES_LOADING_FILE

/-- Full match of the discovery pattern of line 151: the matcher can consume
the whole string. -/
def CandMatch (m : Str) : Prop := (m, ([] : Str)) ∈ candAlts m

/-- No substring of the text matches the discovery pattern of line 151. -/
def noCandidateSubstring (text : Str) : Prop :=
  ∀ pre mid suf, text = pre ++ mid ++ suf → ¬ CandMatch mid

/-- The decimal digit string of `n`, most significant first (the list
`Nat.toDigitsCore` produces); used to reason about `Nat.repr`. -/
def digitsOf (n : Nat) : List Char :=
  if h : n / 10 = 0 then [Nat.digitChar (n % 10)]
  else digitsOf (n / 10) ++ [Nat.digitChar (n % 10)]
decreasing_by
  have hn : n ≠ 0 := fun h0 => h (by simp [h0])
  exact Nat.div_lt_self (Nat.pos_of_ne_zero hn) (by norm_num)

/-- Decimal value of a digit-character list, used to invert `digitsOf`. -/
def valOf (l : List Char) : Nat :=
  l.foldl (fun a c => 10 * a + (c.toNat - 48)) 0

/-! ## Basic character and list lemmas -/

theorem isPrefixOf_iff (l s : Str) : l.isPrefixOf s = true ↔ ∃ t, s = l ++ t := by
  induction l generalizing s with
  | nil => simp [List.isPrefixOf]
  | cons a as ih =>
    cases s with
    | nil => simp [List.isPrefixOf]
    | cons b bs =>
      simp only [List.isPrefixOf, Bool.and_eq_true, beq_iff_eq, ih]
      constructor
      · rintro ⟨rfl, t, rfl⟩; exact ⟨t, rfl⟩
      · rintro ⟨t, ht⟩
        injection ht with h1 h2
        exact ⟨h1.symm, t, h2⟩

theorem char_nat_le {a b : Char} :
    a ≤ b ↔ a.val.toBitVec.toNat ≤ b.val.toBitVec.toNat := by
  rw [Char.le_def, UInt32.le_def, BitVec.le_def]

theorem dig_bounds {c : Char} (h : isDig c = true) :
    48 ≤ c.val.toBitVec.toNat ∧ c.val.toBitVec.toNat ≤ 57 := by
  simp only [isDig, Char.isDigit, Bool.and_eq_true, decide_eq_true_eq] at h
  obtain ⟨h1, h2⟩ := h
  have h1' : (48 : UInt32) ≤ c.val := h1
  have h2' : c.val ≤ (57 : UInt32) := h2
  rw [UInt32.le_def, BitVec.le_def] at h1' h2'
  have e1 : (UInt32.toBitVec 48).toNat = 48 := rfl
  have e2 : (UInt32.toBitVec 57).toNat = 57 := rfl
  omega

theorem dig_ne_char {c a : Char} (h : isDig c = true)
    (ha : a.val.toBitVec.toNat < 48 ∨ 57 < a.val.toBitVec.toNat) : ¬ c = a := by
  rintro rfl
  have := dig_bounds h
  omega

theorem dig_ne_space {c : Char} (h : isDig c = true) : ¬ c = ' ' :=
  dig_ne_char h (by decide)

theorem dig_ne_dash {c : Char} (h : isDig c = true) : ¬ c = '-' :=
  dig_ne_char h (by decide)

theorem dig_not_up {c : Char} (h : isDig c = true) : isUp c = false := by
  have hb := dig_bounds h
  simp only [isUp, Bool.and_eq_false_iff, decide_eq_false_iff_not]
  left
  intro hc
  rw [char_nat_le] at hc
  have e : ('A'.val.toBitVec.toNat) = 65 := rfl
  omega

theorem up_bounds {c : Char} (h : isUp c = true) :
    65 ≤ c.val.toBitVec.toNat ∧ c.val.toBitVec.toNat ≤ 90 := by
  simp only [isUp, Bool.and_eq_true, decide_eq_true_eq] at h
  obtain ⟨h1, h2⟩ := h
  rw [char_nat_le] at h1 h2
  have e1 : ('A'.val.toBitVec.toNat) = 65 := rfl
  have e2 : ('Z'.val.toBitVec.toNat) = 90 := rfl
  omega

theorem up_ne_char {c a : Char} (h : isUp c = true)
    (ha : a.val.toBitVec.toNat < 65 ∨ 90 < a.val.toBitVec.toNat) : ¬ c = a := by
  rintro rfl
  have := up_bounds h
  omega

theorem up_ne_space {c : Char} (h : isUp c = true) : ¬ c = ' ' :=
  up_ne_char h (by decide)

theorem up_ne_dash {c : Char} (h : isUp c = true) : ¬ c = '-' :=
  up_ne_char h (by decide)

theorem up_not_dig {c : Char} (h : isUp c = true) : isDig c = false := by
  cases hd : isDig c with
  | false => rfl
  | true =>
    have h1 := dig_bounds hd
    have h2 := up_bounds h
    omega

theorem up_of_mem {P : Str} {c : Char} (hP : P.all isUp = true) (hc : c ∈ P) :
    isUp c = true := by
  rw [List.all_eq_true] at hP; exact hP c hc

/-! ## The readiness gate: claim C8 -/

theorem waitLoop_succeeds (ok : Nat → Bool) :
    ∀ r a k, k < r → (∀ j, j < k → ok (a + j) = false) → ok (a + k) = true →
      waitLoop ok a r = (true, k) := by
  intro r
  induction r with
  | zero => intro a k hk; omega
  | succ r ih =>
    intro a k hk hbefore hok
    cases k with
    | zero =>
      simp only [Nat.add_zero] at hok
      simp [waitLoop, hok]
    | succ k =>
      have h0 : ok a = false := by
        have := hbefore 0 (Nat.succ_pos k)
        simpa using this
      have hrec : waitLoop ok (a + 1) r = (true, k) := by
        apply ih (a + 1) k (by omega)
        · intro j hj
          have := hbefore (j + 1) (by omega)
          simpa [Nat.add_assoc, Nat.add_comm 1 j] using this
        · have : a + 1 + k = a + (k + 1) := by omega
          rw [this]; exact hok
      simp [waitLoop, h0, hrec]

theorem waitLoop_exhausts (ok : Nat → Bool) :
    ∀ r a, (∀ j, j < r → ok (a + j) = false) → waitLoop ok a r = (false, r) := by
  intro r
  induction r with
  | zero => intro a _; simp [waitLoop]
  | succ r ih =>
    intro a hall
    have h0 : ok a = false := by simpa using hall 0 (Nat.succ_pos r)
    have hrec : waitLoop ok (a + 1) r = (false, r) := by
      apply ih
      intro j hj
      have := hall (j + 1) (by omega)
      simpa [Nat.add_assoc, Nat.add_comm 1 j] using this
    simp [waitLoop, h0, hrec]

/-- Claim C8: `wait_for_file_ready` attempts the open up to the budget of 5
attempts; it returns ready as soon as an attempt succeeds, with one interval
slept per preceding failed attempt (so success on attempt `k`, 0-based, has
slept `k` intervals — the 3rd of 5 attempts sleeps exactly 2), and a file
whose every attempt within the budget fails yields not-ready (with all 5
intervals slept), returning rather than raising. -/
theorem wait_for_file_ready_spec :
    (∀ (ok : Nat → Bool) (k : Nat), k < RETRIES_LOADING_FILE →
      (∀ j, j < k → ok j = false) → ok k = true →
      wait_for_file_ready ok = (true, k)) ∧
    (∀ ok : Nat → Bool, (∀ k, k < RETRIES_LOADING_FILE → ok k = false) →
      wait_for_file_ready ok = (false, RETRIES_LOADING_FILE)) := by
  constructor
  · intro ok k hk hbefore hok
    apply waitLoop_succeeds ok RETRIES_LOADING_FILE 0 k hk
    · intro j hj; simpa using hbefore j hj
    · simpa using hok
  · intro ok hall
    apply waitLoop_exhausts ok RETRIES_LOADING_FILE 0
    intro j hj; simpa using hall j hj

/-- Witness for C8: a file first openable on the 3rd of the 5 attempts is
reported ready after exactly 2 sleeps; a never-openable file is reported
not ready after the full budget. -/
theorem wait_for_file_ready_spec_witness :
    wait_for_file_ready (fun k => k == 2) = (true, 2) ∧
    wait_for_file_ready (fun _ => false) = (false, RETRIES_LOADING_FILE) :=
  ⟨wait_for_file_ready_spec.1 (fun k => k == 2) 2 (by decide)
      (by intro j hj; interval_cases j <;> decide) (by decide),
   wait_for_file_ready_spec.2 (fun _ => false) (fun _ _ => rfl)⟩

/-! ## Truncation of the joined name: claim C3 -/

set_option maxRecDepth 20000 in
/-- Counterexample to claim C3 as stated: a non-empty list of 13 normalized
codes whose `_`-joined name has 143 characters (at most 146), yet the final
name is not the joined name plus `.pdf`: the length test of line 160 is
applied after `.pdf` was already appended, so the name is truncated to 146
characters that still contain `.p` of the first suffix, and `.pdf` is
appended again. -/
theorem mkFinalName_truncation_counterexample :
    (∀ m ∈ ([ "PO-20-0001".data, "PO-20-0002".data, "PO-20-0003".data,
        "PO-20-0004".data, "PO-20-0005".data, "PO-20-0006".data,
        "PO-20-0007".data, "PO-20-0008".data, "PO-20-0009".data,
        "PO-20-0010".data, "PO-20-0011".data, "PO-20-0012".data,
        "SPO-20-0001".data ] : List Str), isCanonical m = true) ∧
    (List.intercalate "_".data
      ([ "PO-20-0001".data, "PO-20-0002".data, "PO-20-0003".data,
        "PO-20-0004".data, "PO-20-0005".data, "PO-20-0006".data,
        "PO-20-0007".data, "PO-20-0008".data, "PO-20-0009".data,
        "PO-20-0010".data, "PO-20-0011".data, "PO-20-0012".data,
        "SPO-20-0001".data ] : List Str)).length ≤ 146 ∧
    mkFinalName
      ([ "PO-20-0001".data, "PO-20-0002".data, "PO-20-0003".data,
        "PO-20-0004".data, "PO-20-0005".data, "PO-20-0006".data,
        "PO-20-0007".data, "PO-20-0008".data, "PO-20-0009".data,
        "PO-20-0010".data, "PO-20-0011".data, "PO-20-0012".data,
        "SPO-20-0001".data ] : List Str) ≠
      List.intercalate "_".data
        ([ "PO-20-0001".data, "PO-20-0002".data, "PO-20-0003".data,
          "PO-20-0004".data, "PO-20-0005".data, "PO-20-0006".data,
          "PO-20-0007".data, "PO-20-0008".data, "PO-20-0009".data,
          "PO-20-0010".data, "PO-20-0011".data, "PO-20-0012".data,
          "SPO-20-0001".data ] : List Str) ++ ".pdf".data := by
  decide

/-- Claim C3 (amended): the truncation test compares the joined name with
`.pdf` already appended against 146, so truncation triggers exactly when the
joined name exceeds 142 characters; when it triggers, the first 146
characters of joined-plus-`.pdf` are kept and `.pdf` is appended (for joined
names of 143-146 characters this keeps a fragment of the first `.pdf`);
for joined names of at most 142 characters the final name is the joined name
plus `.pdf` untruncated, and for joined names of at least 146 characters
(such as 200) the final name is exactly the first 146 characters of codes
plus `.pdf`, 150 characters in total. -/
theorem mkFinalName_truncation (ms : List Str) :
    ((List.intercalate "_".data ms).length ≤ 142 →
      mkFinalName ms = List.intercalate "_".data ms ++ ".pdf".data) ∧
    (142 < (List.intercalate "_".data ms).length →
      mkFinalName ms =
        (List.intercalate "_".data ms ++ ".pdf".data).take 146 ++ ".pdf".data) ∧
    (146 ≤ (List.intercalate "_".data ms).length →
      mkFinalName ms = (List.intercalate "_".data ms).take 146 ++ ".pdf".data ∧
      (mkFinalName ms).length = 150) := by
  have heq : mkFinalName ms =
      if 150 - 4 < (List.intercalate "_".data ms ++ ".pdf".data).length then
        (List.intercalate "_".data ms ++ ".pdf".data).take (150 - 4) ++ ".pdf".data
      else List.intercalate "_".data ms ++ ".pdf".data := rfl
  have hlen : (List.intercalate "_".data ms ++ ".pdf".data).length =
      (List.intercalate "_".data ms).length + 4 := by
    simp [List.length_append]
  refine ⟨?_, ?_, ?_⟩
  · intro h
    rw [heq, if_neg (by omega)]
  · intro h
    rw [heq, if_pos (by omega)]
  · intro h
    have h2 : mkFinalName ms =
        (List.intercalate "_".data ms ++ ".pdf".data).take 146 ++ ".pdf".data := by
      rw [heq, if_pos (by omega)]
    have h3 : (List.intercalate "_".data ms ++ ".pdf".data).take 146 =
        (List.intercalate "_".data ms).take 146 := by
      rw [List.take_append_eq_append_take]
      have h4 : 146 - (List.intercalate "_".data ms).length = 0 := by omega
      rw [h4]
      simp
    constructor
    · rw [h2, h3]
    · rw [h2, h3]
      have h5 : ((List.intercalate "_".data ms).take 146).length = 146 := by
        rw [List.length_take]
        omega
      simp [List.length_append, h5]

/-! ## Uppercase `.PDF` paths: claim C9 -/

theorem pdf_PDF_exclusive {p : Str} (h : ".PDF".data.isSuffixOf p = true) :
    ".pdf".data.isSuffixOf p = false := by
  cases hres : ".pdf".data.isSuffixOf p with
  | false => rfl
  | true =>
    exfalso
    rw [List.isSuffixOf, isPrefixOf_iff] at h hres
    obtain ⟨t, ht⟩ := h
    obtain ⟨u, hu⟩ := hres
    rw [show (".PDF".data.reverse) = 'F' :: 'D' :: 'P' :: '.' :: [] from rfl] at ht
    rw [show (".pdf".data.reverse) = 'f' :: 'd' :: 'p' :: '.' :: [] from rfl] at hu
    simp only [List.cons_append, List.nil_append] at ht hu
    rw [ht] at hu
    injection hu with h1 _
    exact absurd h1 (by decide)

/-- Claim C9: a created path ending in the uppercase extension `.PDF` is
accepted by the watch patterns of line 39, yet the classification stage is a
no-op on it — no rename, no move to `final-output`, no quarantine, whatever
the filesystem, extracted text, or failure point — because `process_pdf`
acts only on paths ending in lowercase `.pdf` (line 144). -/
theorem process_pdf_skips_upper_PDF (fs : FS) (text : Str) (fp : FailPoint)
    (path : Str) (h : ".PDF".data.isSuffixOf path = true) :
    patternsAccept path = true ∧ process_pdf fs path text fp = fs := by
  constructor
  · simp [patternsAccept, h]
  · have hf := pdf_PDF_exclusive h
    simp [process_pdf, hf]

/-- Witness for C9 at the concrete path `scan.PDF`. -/
theorem process_pdf_skips_upper_PDF_witness :
    patternsAccept "scan.PDF".data = true ∧
    process_pdf ⟨[ "scan.PDF".data ], []⟩ "scan.PDF".data "PO1-2".data
      FailPoint.noFail = ⟨[ "scan.PDF".data ], []⟩ :=
  process_pdf_skips_upper_PDF ⟨[ "scan.PDF".data ], []⟩ "PO1-2".data
    FailPoint.noFail "scan.PDF".data (by decide)

set_option maxRecDepth 20000 in
/-- Witness for the amended C3 at a joined name of 200 characters: the
final name is exactly the first 146 characters of codes plus `.pdf`. -/
theorem mkFinalName_truncation_witness :
    146 ≤ (List.intercalate "_".data [List.replicate 200 'A']).length ∧
    (mkFinalName [List.replicate 200 'A'] =
      (List.intercalate "_".data [List.replicate 200 'A']).take 146 ++ ".pdf".data ∧
     (mkFinalName [List.replicate 200 'A']).length = 150) :=
  ⟨by decide, (mkFinalName_truncation [List.replicate 200 'A']).2.2 (by decide)⟩

/-! ## Collision probing: claim C5

The probed names `final_name[:-4] + f'({num}).pdf'` are pairwise distinct
(decimal representations of distinct numbers differ), so among the first
`len(files) + 1` probes one name is always free; this grounds the fuel of
`firstFreeFrom` and the no-overwrite property. -/

theorem contains_iff_mem (l : List Str) (a : Str) : l.contains a = true ↔ a ∈ l := by
  simp

theorem digitChar_val : ∀ k, k < 10 → (Nat.digitChar k).toNat - 48 = k := by decide

theorem valOf_append_one (xs : Str) (c : Char) :
    valOf (xs ++ [c]) = 10 * valOf xs + (c.toNat - 48) := by
  simp [valOf, List.foldl_append]

theorem valOf_digitsOf : ∀ n, valOf (digitsOf n) = n := by
  intro n
  induction n using Nat.strong_induction_on with
  | _ n ih =>
    rw [digitsOf]
    split
    · rename_i h
      have h10 : n < 10 := by omega
      have hv : valOf [Nat.digitChar (n % 10)] = (Nat.digitChar (n % 10)).toNat - 48 := by
        simp [valOf]
      rw [hv, digitChar_val (n % 10) (by omega)]
      omega
    · rename_i h
      have hlt : n / 10 < n := by omega
      rw [valOf_append_one, ih (n / 10) hlt, digitChar_val (n % 10) (by omega)]
      omega

theorem toDigitsCore_eq_digitsOf :
    ∀ fuel n acc, n < fuel → Nat.toDigitsCore 10 fuel n acc = digitsOf n ++ acc := by
  intro fuel
  induction fuel with
  | zero => intro n acc h; omega
  | succ f ih =>
    intro n acc h
    show Nat.toDigitsCore 10 (f + 1) n acc = digitsOf n ++ acc
    rw [Nat.toDigitsCore]
    by_cases h0 : n / 10 = 0
    · simp only [h0, if_pos]
      rw [digitsOf, dif_pos h0]
      simp
    · simp only [h0, if_neg, ite_false]
      have hlt : n / 10 < f := by omega
      rw [show digitsOf n = digitsOf (n / 10) ++ [(n % 10).digitChar] from by
        rw [digitsOf, dif_neg h0]]
      rw [ih (n / 10) ((n % 10).digitChar :: acc) hlt]
      simp

theorem repr_injective_nat {n m : Nat} (h : Nat.repr n = Nat.repr m) : n = m := by
  have h1 : (Nat.toDigitsCore 10 (n + 1) n []).asString =
      (Nat.toDigitsCore 10 (m + 1) m []).asString := h
  have h2 : Nat.toDigitsCore 10 (n + 1) n [] = Nat.toDigitsCore 10 (m + 1) m [] :=
    congrArg String.data h1
  rw [toDigitsCore_eq_digitsOf (n + 1) n [] (by omega),
      toDigitsCore_eq_digitsOf (m + 1) m [] (by omega)] at h2
  simp only [List.append_nil] at h2
  have := congrArg valOf h2
  rwa [valOf_digitsOf, valOf_digitsOf] at this

theorem numName_inj {fn : Str} {n m : Nat} (h : numName fn n = numName fn m) : n = m := by
  unfold numName at h
  have h1 : fn.take (fn.length - 4) ++ '(' :: (Nat.repr n).data =
      fn.take (fn.length - 4) ++ '(' :: (Nat.repr m).data := List.append_cancel_right h
  have h2 : '(' :: (Nat.repr n).data = '(' :: (Nat.repr m).data :=
    List.append_cancel_left h1
  injection h2 with _ h3
  exact repr_injective_nat (congrArg String.mk h3)

theorem pathJoin_fo_inj {x y : Str} (h : pathJoin finalOutputDir x = pathJoin finalOutputDir y) :
    x = y := by
  unfold pathJoin at h
  rw [if_neg (by decide), if_neg (by decide)] at h
  have h1 := List.append_cancel_left h
  injection h1

theorem exists_free_probe (fs : FS) (fn : Str) :
    ∃ k, k < fs.files.length + 1 ∧
      fs.exists? (pathJoin finalOutputDir (numName fn (1 + k))) = false := by
  by_contra hcon
  push_neg at hcon
  have hall : ∀ k, k < fs.files.length + 1 →
      pathJoin finalOutputDir (numName fn (1 + k)) ∈ fs.files := by
    intro k hk
    have hne := hcon k hk
    have htrue : fs.exists? (pathJoin finalOutputDir (numName fn (1 + k))) = true := by
      cases h' : fs.exists? (pathJoin finalOutputDir (numName fn (1 + k))) with
      | true => rfl
      | false => exact absurd h' hne
    rw [← contains_iff_mem]
    exact htrue
  set F := fs.files.length + 1 with hF
  let f : Fin F → Str := fun k => pathJoin finalOutputDir (numName fn (1 + k.val))
  have hinj : Function.Injective f := by
    intro a b hab
    have h1 := pathJoin_fo_inj hab
    have h2 := numName_inj h1
    exact Fin.ext (by omega)
  have hsub : Finset.univ.image f ⊆ fs.files.toFinset := by
    intro x hx
    rw [Finset.mem_image] at hx
    obtain ⟨k, _, rfl⟩ := hx
    rw [List.mem_toFinset]
    exact hall k.val k.isLt
  have hcard1 : (Finset.univ.image f).card = F := by
    rw [Finset.card_image_of_injective Finset.univ hinj, Finset.card_univ, Fintype.card_fin]
  have hcard2 := Finset.card_le_card hsub
  have hcard3 := List.toFinset_card_le fs.files
  omega

theorem firstFreeFrom_spec (fs : FS) (fn : Str) :
    ∀ fuel start,
      (∃ k, k < fuel ∧
        fs.exists? (pathJoin finalOutputDir (numName fn (start + k))) = false) →
      start ≤ firstFreeFrom fs fn fuel start ∧
      fs.exists? (pathJoin finalOutputDir (numName fn (firstFreeFrom fs fn fuel start))) = false ∧
      ∀ m, start ≤ m → m < firstFreeFrom fs fn fuel start →
        fs.exists? (pathJoin finalOutputDir (numName fn m)) = true := by
  intro fuel
  induction fuel with
  | zero =>
    intro start h
    obtain ⟨k, hk, _⟩ := h
    omega
  | succ f ih =>
    intro start h
    rw [firstFreeFrom]
    by_cases h0 : fs.exists? (pathJoin finalOutputDir (numName fn start)) = true
    · rw [if_pos h0]
      obtain ⟨k, hk, hfree⟩ := h
      have hkpos : k ≠ 0 := by
        rintro rfl
        simp only [Nat.add_zero] at hfree
        rw [h0] at hfree
        cases hfree
      obtain ⟨k', rfl⟩ : ∃ k', k = k' + 1 := ⟨k - 1, by omega⟩
      have hrec := ih (start + 1) ⟨k', by omega, by
        have : start + 1 + k' = start + (k' + 1) := by omega
        rw [this]; exact hfree⟩
      refine ⟨by omega, hrec.2.1, ?_⟩
      intro m hm1 hm2
      rcases Nat.eq_or_lt_of_le hm1 with heq | hlt
      · rw [← heq]; exact h0
      · exact hrec.2.2 m (by omega) hm2
    · have h0' : fs.exists? (pathJoin finalOutputDir (numName fn start)) = false := by
        revert h0
        cases fs.exists? (pathJoin finalOutputDir (numName fn start)) with
        | true => intro hcontra; exact absurd rfl hcontra
        | false => intro _; rfl
      rw [if_neg (by rw [h0']; simp)]
      exact ⟨Nat.le_refl start, h0', fun m hm1 hm2 => by omega⟩

/-- Claim C5 (amended): collision resolution applies in the code-extraction
branch: there, a target name already present in `final-output` is
disambiguated with the smallest positive integer `n` such that
`name(n).pdf` is free (probing `(1)`, `(2)`, ... in increasing order), and
the name the probe returns never collides with an existing file, so that
branch never overwrites.  The no-match branch (line 172), however, moves
the file to `final-output/<basename>` without any probing and does
overwrite a pre-existing file of that name. -/
theorem probeName_spec (fs : FS) (fn : Str) :
    fs.exists? (pathJoin finalOutputDir (probeName fs fn)) = false ∧
    (fs.exists? (pathJoin finalOutputDir fn) = true →
      ∃ n, 1 ≤ n ∧ probeName fs fn = numName fn n ∧
        fs.exists? (pathJoin finalOutputDir (numName fn n)) = false ∧
        ∀ m, 1 ≤ m → m < n →
          fs.exists? (pathJoin finalOutputDir (numName fn m)) = true) := by
  by_cases h : fs.exists? (pathJoin finalOutputDir fn) = true
  · have hex := exists_free_probe fs fn
    obtain ⟨k, hk, hfree⟩ := hex
    have hspec := firstFreeFrom_spec fs fn (fs.files.length + 1) 1 ⟨k, hk, hfree⟩
    have hpn : probeName fs fn = numName fn (firstFreeFrom fs fn (fs.files.length + 1) 1) := by
      rw [probeName, if_pos h]
    refine ⟨?_, fun _ => ⟨firstFreeFrom fs fn (fs.files.length + 1) 1,
      hspec.1, hpn, hspec.2.1, fun m hm1 hm2 => hspec.2.2 m hm1 hm2⟩⟩
    rw [hpn]
    exact hspec.2.1
  · have h' : fs.exists? (pathJoin finalOutputDir fn) = false := by
      revert h
      cases fs.exists? (pathJoin finalOutputDir fn) with
      | true => intro hcontra; exact absurd rfl hcontra
      | false => intro _; rfl
    have hpn : probeName fs fn = fn := by
      rw [probeName, if_neg (by rw [h']; simp)]
    refine ⟨by rw [hpn]; exact h', fun hcontra => ?_⟩
    rw [h'] at hcontra
    cases hcontra

/-- Witness for the amended C5: with `final-output/X.pdf` and
`final-output/X(1).pdf` both present, probing for `X.pdf` selects
`X(2).pdf`, which is free, with every smaller probe occupied. -/
theorem probeName_spec_witness :
    (FS.exists? ⟨[ "final-output/X.pdf".data, "final-output/X(1).pdf".data ], []⟩
      (pathJoin finalOutputDir (probeName
        ⟨[ "final-output/X.pdf".data, "final-output/X(1).pdf".data ], []⟩
        "X.pdf".data)) = false) ∧
    (∃ n, 1 ≤ n ∧ probeName
        ⟨[ "final-output/X.pdf".data, "final-output/X(1).pdf".data ], []⟩
        "X.pdf".data = numName "X.pdf".data n ∧
      FS.exists? ⟨[ "final-output/X.pdf".data, "final-output/X(1).pdf".data ], []⟩
        (pathJoin finalOutputDir (numName "X.pdf".data n)) = false ∧
      ∀ m, 1 ≤ m → m < n →
        FS.exists? ⟨[ "final-output/X.pdf".data, "final-output/X(1).pdf".data ], []⟩
          (pathJoin finalOutputDir (numName "X.pdf".data m)) = true) :=
  ⟨(probeName_spec ⟨[ "final-output/X.pdf".data, "final-output/X(1).pdf".data ], []⟩
      "X.pdf".data).1,
   (probeName_spec ⟨[ "final-output/X.pdf".data, "final-output/X(1).pdf".data ], []⟩
      "X.pdf".data).2 (by decide)⟩

/-- Counterexample to claim C5 as stated: in the no-match branch the target
`final-output/a.pdf` already exists, yet the pipeline uses no numeric
suffix — the probed name `a(1).pdf` never appears, the input file lands
directly on the existing path, and one of the two files is destroyed (two
files collapse into one). -/
theorem collision_claim_counterexample :
    FS.exists? ⟨[ "in/a.pdf".data, "final-output/a.pdf".data ], []⟩
      (pathJoin finalOutputDir (basename "in/a.pdf".data)) = true ∧
    (process_pdf ⟨[ "in/a.pdf".data, "final-output/a.pdf".data ], []⟩
        "in/a.pdf".data "no code here".data FailPoint.noFail).files =
      [ "final-output/a.pdf".data ] ∧
    pathJoin finalOutputDir (numName "a.pdf".data 1) ∉
      (process_pdf ⟨[ "in/a.pdf".data, "final-output/a.pdf".data ], []⟩
        "in/a.pdf".data "no code here".data FailPoint.noFail).files := by
  refine ⟨by decide, ?_, ?_⟩ <;> decide

/-! ## Characterization of the matcher combinators -/

theorem runSplit (p : Char → Bool) :
    ∀ (n : Nat) (s : Str),
      ((s.takeWhile p).take n) ++ s.drop ((s.takeWhile p).take n).length = s := by
  intro n s
  induction s generalizing n with
  | nil => simp
  | cons c cs ih =>
    by_cases hp : p c
    · rw [List.takeWhile_cons_of_pos hp]
      cases n with
      | zero => simp
      | succ k =>
        simp only [List.take_succ_cons, List.length_cons, List.cons_append, List.drop_succ_cons]
        rw [ih k]
    · rw [List.takeWhile_cons_of_neg hp]
      simp

theorem takeWhile_append_all {p : Char → Bool} {c : Str} (hall : c.all p = true) :
    ∀ r, (c ++ r).takeWhile p = c ++ r.takeWhile p := by
  induction c with
  | nil => intro r; simp
  | cons a as ih =>
    intro r
    simp only [List.all_cons, Bool.and_eq_true] at hall
    simp only [List.cons_append, List.takeWhile_cons_of_pos hall.1]
    rw [ih hall.2]

theorem drop_append_len {c : Str} : ∀ (r : Str) (t : Nat),
    (c ++ r).drop (c.length + t) = r.drop t := by
  intro r t
  rw [List.drop_append_eq_append_drop]
  have h1 : c.length + t - c.length = t := by omega
  rw [h1, List.drop_eq_nil_of_le (by omega), List.nil_append]

theorem repAlts_mem {p : Char → Bool} {n : Nat} {s c r : Str} :
    (c, r) ∈ repAlts p n s ↔
      c.all p = true ∧ 1 ≤ c.length ∧ c.length ≤ n ∧ s = c ++ r := by
  constructor
  · intro h
    unfold repAlts at h
    rw [List.mem_map] at h
    obtain ⟨i, hi, heq⟩ := h
    rw [List.mem_range] at hi
    set run := (s.takeWhile p).take n with hrun
    have hrunall : run.all p = true := by
      rw [List.all_eq_true]
      intro x hx
      exact List.mem_takeWhile_imp (List.mem_of_mem_take hx)
    have hrunlen : run.length ≤ n := by
      rw [hrun, List.length_take]; omega
    injection heq with hc hr
    have hklen : run.length - i ≤ run.length := by omega
    refine ⟨?_, ?_, ?_, ?_⟩
    · rw [← hc, List.all_eq_true]
      intro x hx
      rw [List.all_eq_true] at hrunall
      exact hrunall x (List.mem_of_mem_take hx)
    · rw [← hc, List.length_take]
      omega
    · rw [← hc, List.length_take]
      omega
    · rw [← hc, ← hr]
      rw [← List.append_assoc, List.take_append_drop]
      exact (runSplit p n s).symm
  · rintro ⟨hall, h1, h2, rfl⟩
    unfold repAlts
    rw [List.mem_map]
    have htw : (c ++ r).takeWhile p = c ++ r.takeWhile p := takeWhile_append_all hall r
    have hrun : ((c ++ r).takeWhile p).take n = c ++ (r.takeWhile p).take (n - c.length) := by
      rw [htw, List.take_append_eq_append_take, List.take_of_length_le h2]
    set w := (r.takeWhile p).take (n - c.length) with hw
    have hrunlen : (((c ++ r).takeWhile p).take n).length = c.length + w.length := by
      rw [hrun, List.length_append]
    refine ⟨w.length, ?_, ?_⟩
    · rw [List.mem_range, hrunlen]; omega
    · have hsub : c.length + w.length - w.length = c.length := by omega
      rw [hrunlen, hsub, hrun]
      have e1 : (c ++ w).take c.length = c := List.take_left c w
      have e2 : (c ++ w).drop c.length = w := List.drop_left c w
      rw [e1, e2]
      have e3 : (c ++ r).drop (c.length + w.length) = r.drop w.length :=
        drop_append_len r w.length
      rw [e3]
      have e4 : w ++ r.drop w.length = r := by
        rw [hw]
        exact runSplit p (n - c.length) r
      rw [e4]


theorem optAlts_mem {ch : Char} {s c r : Str} :
    (c, r) ∈ optAlts ch s ↔ (c = [ch] ∧ s = ch :: r) ∨ (c = [] ∧ r = s) := by
  cases s with
  | nil =>
    simp only [optAlts, List.nil_append, List.mem_singleton, Prod.mk.injEq]
    aesop
  | cons a t =>
    by_cases ha : a = ch
    · subst ha
      simp only [optAlts, if_pos rfl, List.cons_append, List.nil_append, List.mem_cons,
        List.mem_singleton, Prod.mk.injEq]
      aesop
    · simp only [optAlts, if_neg ha, List.nil_append, List.mem_singleton, Prod.mk.injEq]
      aesop

theorem optClsAlts_mem {p : Char → Bool} {s c r : Str} :
    (c, r) ∈ optClsAlts p s ↔
      (∃ a, p a = true ∧ c = [a] ∧ s = a :: r) ∨ (c = [] ∧ r = s) := by
  cases s with
  | nil =>
    simp only [optClsAlts, List.nil_append, List.mem_singleton, Prod.mk.injEq]
    aesop
  | cons a t =>
    by_cases ha : p a = true
    · simp only [optClsAlts, ha, if_pos, List.cons_append, List.nil_append, List.mem_cons,
        List.mem_singleton, Prod.mk.injEq]
      aesop
    · simp only [optClsAlts, ha, if_neg, List.nil_append, List.mem_singleton, Prod.mk.injEq]
      aesop

theorem litAlts_mem {ch : Char} {s c r : Str} :
    (c, r) ∈ litAlts ch s ↔ c = [ch] ∧ s = ch :: r := by
  cases s with
  | nil => simp [litAlts]
  | cons a t =>
    by_cases ha : a = ch
    · subst ha
      simp only [litAlts, if_pos rfl, List.mem_singleton, Prod.mk.injEq]
      aesop
    · simp only [litAlts, if_neg ha, List.not_mem_nil, false_iff, not_and]
      aesop

theorem seqA_mem {f g : Str → List (Str × Str)} {s c r : Str} :
    (c, r) ∈ seqA f g s ↔
      ∃ c1 r1 c2, (c1, r1) ∈ f s ∧ (c2, r) ∈ g r1 ∧ c = c1 ++ c2 := by
  unfold seqA
  rw [List.mem_flatMap]
  constructor
  · rintro ⟨⟨c1, r1⟩, h1, h2⟩
    rw [List.mem_map] at h2
    obtain ⟨⟨c2, r2⟩, h3, heq⟩ := h2
    injection heq with hc hr
    refine ⟨c1, r1, c2, h1, ?_, hc.symm⟩
    simp only at h3 hr
    rw [← hr]
    exact h3
  · rintro ⟨c1, r1, c2, h1, h2, rfl⟩
    refine ⟨(c1, r1), h1, ?_⟩
    rw [List.mem_map]
    exact ⟨(c2, r), h2, rfl⟩

theorem ciStrip_iff : ∀ (t s c r : Str),
    ciStrip t s = some (c, r) ↔ ciListEq c t = true ∧ s = c ++ r := by
  intro t
  induction t with
  | nil =>
    intro s c r
    simp only [ciStrip, Option.some.injEq, Prod.mk.injEq]
    constructor
    · rintro ⟨rfl, rfl⟩
      exact ⟨rfl, by simp⟩
    · rintro ⟨hci, rfl⟩
      cases c with
      | nil => simp
      | cons x xs => cases hci
  | cons b bs ih =>
    intro s c r
    cases s with
    | nil =>
      simp only [ciStrip]
      constructor
      · rintro h; cases h
      · rintro ⟨hci, heq⟩
        cases c with
        | nil => cases hci
        | cons x xs => cases heq
    | cons a as =>
      simp only [ciStrip]
      by_cases hci : ciEq a b = true
      · rw [if_pos hci]
        constructor
        · intro h
          rw [Option.map_eq_some'] at h
          obtain ⟨⟨c', r'⟩, hc', heq⟩ := h
          simp only [Prod.mk.injEq] at heq
          obtain ⟨h1, h2⟩ := heq
          obtain ⟨hl, hs⟩ := (ih as c' r').mp hc'
          subst h2
          rw [← h1]
          constructor
          · simp only [ciListEq, Bool.and_eq_true]
            exact ⟨hci, hl⟩
          · rw [hs]; rfl
        · rintro ⟨hlist, heq⟩
          cases c with
          | nil => cases hlist
          | cons x xs =>
            simp only [ciListEq, Bool.and_eq_true] at hlist
            simp only [List.cons_append] at heq
            injection heq with h1 h2
            subst h1
            rw [(ih as xs r).mpr ⟨hlist.2, h2⟩]
            rfl
      · rw [if_neg hci]
        constructor
        · rintro h; cases h
        · rintro ⟨hlist, heq⟩
          cases c with
          | nil => cases hlist
          | cons x xs =>
            simp only [ciListEq, Bool.and_eq_true] at hlist
            simp only [List.cons_append] at heq
            injection heq with h1 _
            subst h1
            exact absurd hlist.1 hci

theorem tokAlts_mem {s c r : Str} :
    (c, r) ∈ tokAlts s ↔ ∃ t ∈ candTokens, ciListEq c t = true ∧ s = c ++ r := by
  unfold tokAlts
  rw [List.mem_filterMap]
  constructor
  · rintro ⟨t, ht, hs⟩
    exact ⟨t, ht, (ciStrip_iff t s c r).mp hs⟩
  · rintro ⟨t, ht, h1, h2⟩
    exact ⟨t, ht, (ciStrip_iff t s c r).mpr ⟨h1, h2⟩⟩

/-! ## Soundness and transport of the discovery matcher -/

theorem seqA_sound {f g : Str → List (Str × Str)}
    (hf : ∀ s c r, (c, r) ∈ f s → s = c ++ r)
    (hg : ∀ s c r, (c, r) ∈ g s → s = c ++ r) :
    ∀ s c r, (c, r) ∈ seqA f g s → s = c ++ r := by
  intro s c r h
  rw [seqA_mem] at h
  obtain ⟨c1, r1, c2, h1, h2, rfl⟩ := h
  rw [hf s c1 r1 h1, hg r1 c2 r h2, List.append_assoc]

theorem tokAlts_sound : ∀ s c r, (c, r) ∈ tokAlts s → s = c ++ r := by
  intro s c r h
  rw [tokAlts_mem] at h
  obtain ⟨t, _, _, hs⟩ := h
  exact hs

theorem optAlts_sound (ch : Char) : ∀ s c r, (c, r) ∈ optAlts ch s → s = c ++ r := by
  intro s c r h
  rw [optAlts_mem] at h
  rcases h with ⟨rfl, rfl⟩ | ⟨rfl, rfl⟩ <;> simp

theorem optClsAlts_sound (p : Char → Bool) :
    ∀ s c r, (c, r) ∈ optClsAlts p s → s = c ++ r := by
  intro s c r h
  rw [optClsAlts_mem] at h
  rcases h with ⟨a, _, rfl, rfl⟩ | ⟨rfl, rfl⟩ <;> simp

theorem litAlts_sound (ch : Char) : ∀ s c r, (c, r) ∈ litAlts ch s → s = c ++ r := by
  intro s c r h
  rw [litAlts_mem] at h
  obtain ⟨rfl, rfl⟩ := h
  simp

theorem repAlts_sound (p : Char → Bool) (n : Nat) :
    ∀ s c r, (c, r) ∈ repAlts p n s → s = c ++ r := by
  intro s c r h
  exact (repAlts_mem.mp h).2.2.2

theorem candAlts_sound : ∀ s c r, (c, r) ∈ candAlts s → s = c ++ r :=
  seqA_sound tokAlts_sound (seqA_sound (optAlts_sound ' ')
    (seqA_sound (optClsAlts_sound isDig) (seqA_sound (optAlts_sound '-')
      (seqA_sound (repAlts_sound isDig 2)
        (seqA_sound (litAlts_sound '-') (repAlts_sound isDig 4))))))

theorem seqA_trans {f g : Str → List (Str × Str)}
    (hfs : ∀ s c r, (c, r) ∈ f s → s = c ++ r)
    (hft : ∀ c r r', (c, r) ∈ f (c ++ r) → (c, r') ∈ f (c ++ r'))
    (hgt : ∀ c r r', (c, r) ∈ g (c ++ r) → (c, r') ∈ g (c ++ r')) :
    ∀ c r r', (c, r) ∈ seqA f g (c ++ r) → (c, r') ∈ seqA f g (c ++ r') := by
  intro c r r' h
  rw [seqA_mem] at h ⊢
  obtain ⟨c1, r1, c2, h1, h2, rfl⟩ := h
  have hr1 : c2 ++ r = r1 := by
    have hs := hfs _ _ _ h1
    rw [List.append_assoc] at hs
    exact List.append_cancel_left hs
  rw [← hr1] at h1 h2
  have h1' : (c1, c2 ++ r') ∈ f (c1 ++ (c2 ++ r')) := by
    apply hft c1 (c2 ++ r) (c2 ++ r')
    rw [← List.append_assoc]
    exact h1
  have h2' : (c2, r') ∈ g (c2 ++ r') := hgt c2 r r' h2
  refine ⟨c1, c2 ++ r', c2, ?_, h2', rfl⟩
  rw [List.append_assoc]
  exact h1'

theorem tokAlts_trans : ∀ c r r', (c, r) ∈ tokAlts (c ++ r) → (c, r') ∈ tokAlts (c ++ r') := by
  intro c r r' h
  rw [tokAlts_mem] at h ⊢
  obtain ⟨t, ht, hci, _⟩ := h
  exact ⟨t, ht, hci, rfl⟩

theorem optAlts_trans (ch : Char) :
    ∀ c r r', (c, r) ∈ optAlts ch (c ++ r) → (c, r') ∈ optAlts ch (c ++ r') := by
  intro c r r' h
  rw [optAlts_mem] at h ⊢
  rcases h with ⟨rfl, _⟩ | ⟨rfl, _⟩
  · left; exact ⟨rfl, rfl⟩
  · right; exact ⟨rfl, rfl⟩

theorem optClsAlts_trans (p : Char → Bool) :
    ∀ c r r', (c, r) ∈ optClsAlts p (c ++ r) → (c, r') ∈ optClsAlts p (c ++ r') := by
  intro c r r' h
  rw [optClsAlts_mem] at h ⊢
  rcases h with ⟨a, ha, rfl, heq⟩ | ⟨rfl, _⟩
  · left
    refine ⟨a, ha, rfl, ?_⟩
    simp
  · right; exact ⟨rfl, rfl⟩

theorem litAlts_trans (ch : Char) :
    ∀ c r r', (c, r) ∈ litAlts ch (c ++ r) → (c, r') ∈ litAlts ch (c ++ r') := by
  intro c r r' h
  rw [litAlts_mem] at h ⊢
  obtain ⟨rfl, _⟩ := h
  exact ⟨rfl, rfl⟩

theorem repAlts_trans (p : Char → Bool) (n : Nat) :
    ∀ c r r', (c, r) ∈ repAlts p n (c ++ r) → (c, r') ∈ repAlts p n (c ++ r') := by
  intro c r r' h
  rw [repAlts_mem] at h ⊢
  obtain ⟨h1, h2, h3, _⟩ := h
  exact ⟨h1, h2, h3, rfl⟩

theorem candAlts_trans :
    ∀ c r r', (c, r) ∈ candAlts (c ++ r) → (c, r') ∈ candAlts (c ++ r') :=
  seqA_trans tokAlts_sound tokAlts_trans
    (seqA_trans (optAlts_sound ' ') (optAlts_trans ' ')
      (seqA_trans (optClsAlts_sound isDig) (optClsAlts_trans isDig)
        (seqA_trans (optAlts_sound '-') (optAlts_trans '-')
          (seqA_trans (repAlts_sound isDig 2) (repAlts_trans isDig 2)
            (seqA_trans (litAlts_sound '-') (litAlts_trans '-')
              (repAlts_trans isDig 4))))))

theorem candAlts_consumed_ne_nil {s c r : Str} (h : (c, r) ∈ candAlts s) : c ≠ [] := by
  have h' : (c, r) ∈ seqA tokAlts (seqA (optAlts ' ') (seqA (optClsAlts isDig)
      (seqA (optAlts '-') (seqA (repAlts isDig 2)
        (seqA (litAlts '-') (repAlts isDig 4)))))) s := h
  rw [seqA_mem] at h'
  obtain ⟨c1, r1, c2, h1, _, rfl⟩ := h'
  rw [tokAlts_mem] at h1
  obtain ⟨t, ht, hci, _⟩ := h1
  have hc1 : c1 ≠ [] := by
    intro hc1
    subst hc1
    fin_cases ht <;> exact absurd hci (by decide)
  intro hc
  exact hc1 (List.append_eq_nil.mp hc).1

theorem candMatchAt_sound {s m r : Str} (h : candMatchAt s = some (m, r)) :
    s = m ++ r ∧ CandMatch m ∧ m ≠ [] := by
  have hmem : (m, r) ∈ candAlts s := by
    apply List.mem_of_mem_head?
    rw [candMatchAt] at h
    rw [h]
    rfl
  have hs := candAlts_sound _ _ _ hmem
  refine ⟨hs, ?_, candAlts_consumed_ne_nil hmem⟩
  have h2 : (m, ([] : Str)) ∈ candAlts (m ++ []) := by
    apply candAlts_trans m r
    rw [← hs]
    exact hmem
  rw [List.append_nil] at h2
  exact h2

/-! ## The no-match branch: claim C2 -/

theorem findallAux_nil_of_no_match (text : Str) (hno : noCandidateSubstring text) :
    ∀ fuel s pre, text = pre ++ s → findallAux fuel s = [] := by
  intro fuel
  induction fuel with
  | zero => intro s pre _; rfl
  | succ f ih =>
    intro s pre htext
    cases s with
    | nil => rfl
    | cons ch cs =>
      cases hm : candMatchAt (ch :: cs) with
      | some mr =>
        exfalso
        obtain ⟨m, r⟩ := mr
        obtain ⟨hs, hcand, _⟩ := candMatchAt_sound hm
        refine hno pre m r ?_ hcand
        rw [htext, hs, List.append_assoc]
      | none =>
        simp only [findallAux, hm]
        exact ih cs (pre ++ [ch]) (by rw [htext]; simp)

theorem findallCand_nil {text : Str} (h : noCandidateSubstring text) :
    findallCand text = [] :=
  findallAux_nil_of_no_match text h text.length text [] rfl

/-- Claim C2: a processed `.pdf` document whose extracted text contains no
substring matching the candidate code pattern of line 151 is moved (line
172) to `final-output` under its original basename, unchanged: the run
without failure equals exactly the single move of the file onto
`final-output/<basename>`, which is present afterwards. -/
theorem process_pdf_no_match (fs : FS) (path text : Str)
    (hpdf : ".pdf".data.isSuffixOf path = true)
    (hno : noCandidateSubstring text) :
    process_pdf fs path text FailPoint.noFail =
      fs.move path (pathJoin finalOutputDir (basename path)) ∧
    pathJoin finalOutputDir (basename path) ∈
      (process_pdf fs path text FailPoint.noFail).files := by
  have hfa : findallCand text = [] := findallCand_nil hno
  have heq : process_pdf fs path text FailPoint.noFail =
      fs.move path (pathJoin finalOutputDir (basename path)) := by
    rw [process_pdf, if_pos hpdf, if_neg (by simp), hfa]
    simp
  refine ⟨heq, ?_⟩
  rw [heq, FS.move]
  exact List.mem_cons_self _ _

/-- Witness for C2: empty text (no candidate substring) moves `in/a.pdf`
to `final-output/a.pdf`. -/
theorem process_pdf_no_match_witness :
    process_pdf ⟨[ "in/a.pdf".data ], []⟩ "in/a.pdf".data [] FailPoint.noFail =
      FS.move ⟨[ "in/a.pdf".data ], []⟩ "in/a.pdf".data
        (pathJoin finalOutputDir (basename "in/a.pdf".data)) ∧
    pathJoin finalOutputDir (basename "in/a.pdf".data) ∈
      (process_pdf ⟨[ "in/a.pdf".data ], []⟩ "in/a.pdf".data []
        FailPoint.noFail).files :=
  process_pdf_no_match ⟨[ "in/a.pdf".data ], []⟩ "in/a.pdf".data [] (by decide)
    (by
      intro pre mid suf h hc
      have h1 := (List.append_eq_nil.mp h.symm).1
      have h2 := (List.append_eq_nil.mp h1).2
      subst h2
      have hdec : ¬ ((([] : Str), ([] : Str)) ∈ candAlts []) := by decide
      exact hdec hc)

/-! ## The re-parse pattern of line 119 -/

theorem reParse_sound {s g1 g2 g3 : Str} (h : reParse s = some (g1, g2, g3)) :
    g1.all isUp = true ∧ 1 ≤ g1.length ∧
    g2.all isDig = true ∧ 1 ≤ g2.length ∧ g2.length ≤ 2 ∧
    g3.all isDig = true ∧ 1 ≤ g3.length ∧ g3.length ≤ 4 := by
  rw [reParse, Option.map_eq_some'] at h
  obtain ⟨⟨⟨a1, a2, a3⟩, r⟩, hh, heq⟩ := h
  simp only at heq
  have hmem : ((a1, a2, a3), r) ∈ reParseAlts s :=
    List.mem_of_mem_head? (by rw [hh]; rfl)
  unfold reParseAlts at hmem
  rw [List.mem_flatMap] at hmem
  obtain ⟨⟨c1, r1⟩, h1, hmem⟩ := hmem
  rw [List.mem_flatMap] at hmem
  obtain ⟨⟨o1, r2⟩, ho1, hmem⟩ := hmem
  rw [List.mem_flatMap] at hmem
  obtain ⟨⟨c2, r3⟩, h2, hmem⟩ := hmem
  rw [List.mem_flatMap] at hmem
  obtain ⟨⟨o2, r4⟩, ho2, hmem⟩ := hmem
  rw [List.mem_map] at hmem
  obtain ⟨⟨c3, r5⟩, h3, heq2⟩ := hmem
  simp only [Prod.mk.injEq] at heq2
  obtain ⟨⟨e1, e2, e3⟩, _⟩ := heq2
  injection heq with hg hr
  injection hr with hB hC
  have f1 := repAlts_mem.mp h1
  have f2 := repAlts_mem.mp h2
  have f3 := repAlts_mem.mp h3
  subst e1; subst e2; subst e3
  subst hg; subst hB; subst hC
  exact ⟨f1.1, f1.2.1, f2.1, f2.2.1, f2.2.2.1, f3.1, f3.2.1, f3.2.2.1⟩

theorem reParseAlts_intro {g1 o1 g2 o2 g3 rest : Str}
    (hg1 : g1.all isUp = true) (h1 : 1 ≤ g1.length)
    (ho1 : o1 = ([] : Str) ∨ o1 = ['-'])
    (hg2 : g2.all isDig = true) (h2a : 1 ≤ g2.length) (h2b : g2.length ≤ 2)
    (ho2 : o2 = ([] : Str) ∨ o2 = ['-'])
    (hg3 : g3.all isDig = true) (h3a : 1 ≤ g3.length) (h3b : g3.length ≤ 4) :
    ((g1, g2, g3), rest) ∈
      reParseAlts (g1 ++ (o1 ++ (g2 ++ (o2 ++ (g3 ++ rest))))) := by
  unfold reParseAlts
  rw [List.mem_flatMap]
  refine ⟨(g1, o1 ++ (g2 ++ (o2 ++ (g3 ++ rest)))), ?_, ?_⟩
  · rw [repAlts_mem]
    refine ⟨hg1, h1, ?_, rfl⟩
    simp only [List.length_append]
    omega
  · rw [List.mem_flatMap]
    refine ⟨(o1, g2 ++ (o2 ++ (g3 ++ rest))), ?_, ?_⟩
    · rw [optAlts_mem]
      rcases ho1 with rfl | rfl
      · right; exact ⟨rfl, by simp⟩
      · left; exact ⟨rfl, by simp⟩
    · rw [List.mem_flatMap]
      refine ⟨(g2, o2 ++ (g3 ++ rest)), ?_, ?_⟩
      · rw [repAlts_mem]
        exact ⟨hg2, h2a, h2b, rfl⟩
      · rw [List.mem_flatMap]
        refine ⟨(o2, g3 ++ rest), ?_, ?_⟩
        · rw [optAlts_mem]
          rcases ho2 with rfl | rfl
          · right; exact ⟨rfl, by simp⟩
          · left; exact ⟨rfl, by simp⟩
        · rw [List.mem_map]
          refine ⟨(g3, rest), ?_, rfl⟩
          rw [repAlts_mem]
          exact ⟨hg3, h3a, h3b, rfl⟩

theorem reParse_isSome_of_mem {s : Str} {x : (Str × Str × Str) × Str}
    (h : x ∈ reParseAlts s) : ∃ g, reParse s = some g := by
  have hne : reParseAlts s ≠ [] := List.ne_nil_of_mem h
  rw [reParse]
  cases hl : reParseAlts s with
  | nil => exact absurd hl hne
  | cons a t => exact ⟨a.1, by simp⟩

/-! ## Digit groups survive zero-padding and confusion replacement -/

theorem replCh_id {a b : Char} {s : Str} (h : ∀ c ∈ s, ¬ c = a) : replCh a b s = s := by
  unfold replCh
  induction s with
  | nil => rfl
  | cons x xs ih =>
    simp only [List.map_cons, List.cons.injEq]
    constructor
    · rw [if_neg (h x (List.mem_cons_self x xs))]
    · exact ih (fun c hc => h c (List.mem_cons_of_mem x hc))

theorem replaceConfusions_id {s : Str} (h : s.all isDig = true) :
    replaceConfusions s = s := by
  rw [List.all_eq_true] at h
  unfold replaceConfusions
  have e1 : replCh 'O' '0' s = s :=
    replCh_id (fun c hc => dig_ne_char (h c hc) (by decide))
  rw [e1]
  have e2 : replCh 'I' '1' s = s :=
    replCh_id (fun c hc => dig_ne_char (h c hc) (by decide))
  rw [e2]
  have e3 : replCh 'S' '5' s = s :=
    replCh_id (fun c hc => dig_ne_char (h c hc) (by decide))
  rw [e3]
  have e4 : replCh 'B' '8' s = s :=
    replCh_id (fun c hc => dig_ne_char (h c hc) (by decide))
  rw [e4]
  have e5 : replCh 'Z' '2' s = s :=
    replCh_id (fun c hc => dig_ne_char (h c hc) (by decide))
  rw [e5]
  exact replCh_id (fun c hc => dig_ne_char (h c hc) (by decide))

theorem zfill_digits (n : Nat) {s : Str} (h : s.all isDig = true) :
    (zfill n s).all isDig = true ∧ (zfill n s).length = max n s.length := by
  by_cases hn : n ≤ s.length
  · have hred : zfill n s = s := by
      rw [zfill.eq_def, if_pos hn]
    rw [hred]
    exact ⟨h, by omega⟩
  · cases s with
    | nil =>
      have hred : zfill n [] = List.replicate n '0' := by
        rw [zfill.eq_def, if_neg hn]
      rw [hred]
      constructor
      · rw [List.all_eq_true]
        intro c hc
        rw [List.mem_replicate] at hc
        rw [hc.2]
        decide
      · simp only [List.length_replicate, List.length_nil]
        omega
    | cons c r =>
      simp only [List.all_cons, Bool.and_eq_true] at h
      have hc1 : ¬ c = '+' := dig_ne_char h.1 (by decide)
      have hc2 : ¬ c = '-' := dig_ne_char h.1 (by decide)
      have hsign : ¬ (c = '+' ∨ c = '-') := by
        rintro (hx | hx)
        · exact hc1 hx
        · exact hc2 hx
      have hred : zfill n (c :: r) =
          List.replicate (n - (c :: r).length) '0' ++ (c :: r) := by
        rw [zfill.eq_def, if_neg hn]
        exact if_neg hsign
      rw [hred]
      constructor
      · rw [List.all_eq_true]
        intro x hx
        rw [List.mem_append] at hx
        rcases hx with hx | hx
        · rw [List.mem_replicate] at hx
          rw [hx.2]
          decide
        · rw [List.mem_cons] at hx
          rcases hx with rfl | hx
          · exact h.1
          · exact (List.all_eq_true.mp h.2) x hx
      · simp only [List.length_append, List.length_replicate, List.length_cons]
        omega

/-! ## Digit-confusion replacement never changes the numeric groups: claim C10 -/

/-- Claim C10: the letter-to-digit confusion substitutions of lines 126-127
never change either numeric segment, because the re-parse groups they are
applied to contain only digit characters (and `zfill` only adds `'0'`): the
variant of `autocorrect_match` with those replacement steps removed is
extensionally equal to `autocorrect_match` on every input string. -/
theorem autocorrect_match_plain_eq (s : Str) :
    autocorrect_match_plain s = autocorrect_match s := by
  cases hp : reParse (stripAndSub s) with
  | none =>
    unfold autocorrect_match autocorrect_match_plain
    simp only [hp]
  | some g =>
    obtain ⟨g1, g2, g3⟩ := g
    have hs := reParse_sound hp
    have e2 : replaceConfusions (zfill 2 g2) = zfill 2 g2 :=
      replaceConfusions_id (zfill_digits 2 hs.2.2.1).1
    have e3 : replaceConfusions (zfill 4 g3) = zfill 4 g3 :=
      replaceConfusions_id (zfill_digits 4 hs.2.2.2.2.2.1).1
    unfold autocorrect_match autocorrect_match_plain
    simp only [hp, e2, e3]

/-! ## The prefix-lock of lines 129-130: claim C7 -/

/-- Claim C7: for every candidate whose re-parsed prefix is one of
`PO`, `SPO`, `RNWS`, `SGR`, `SSR`, the middle two-digit segment of
`autocorrect_match`'s output begins with `'2'`, regardless of the digits
the input carried there: the output is the prefix, a dash, `'2'` followed
by one further digit, a dash, and the four-digit last group. -/
theorem autocorrect_match_locked (s p g2 g3 : Str)
    (hp : reParse (stripAndSub s) = some (p, g2, g3))
    (hlock : lockTokens.contains p = true) :
    ∃ b t, autocorrect_match s = p ++ '-' :: '2' :: b :: '-' :: t ∧
      isDig b = true ∧ t.all isDig = true ∧ t.length = 4 := by
  have hs := reParse_sound hp
  have e2 : replaceConfusions (zfill 2 g2) = zfill 2 g2 :=
    replaceConfusions_id (zfill_digits 2 hs.2.2.1).1
  have e3 : replaceConfusions (zfill 4 g3) = zfill 4 g3 :=
    replaceConfusions_id (zfill_digits 4 hs.2.2.2.2.2.1).1
  have hlen2 : (zfill 2 g2).length = 2 := by
    have := (zfill_digits 2 hs.2.2.1).2
    omega
  obtain ⟨x, b, hxb⟩ := List.length_eq_two.mp hlen2
  have hdigb : isDig b = true := by
    have hall := (zfill_digits 2 hs.2.2.1).1
    rw [hxb, List.all_cons, List.all_cons] at hall
    simp only [Bool.and_eq_true] at hall
    exact hall.2.1
  have e2' : replaceConfusions [x, b] = [x, b] := by
    rw [← hxb]; exact e2
  refine ⟨b, replaceConfusions (zfill 4 g3), ?_, hdigb, ?_, ?_⟩
  · unfold autocorrect_match
    simp only [hp, hxb, e2', hlock, if_true, List.drop_succ_cons, List.drop_zero,
      List.cons_append, List.nil_append, List.append_assoc]
  · rw [e3]
    exact (zfill_digits 4 hs.2.2.2.2.2.1).1
  · rw [e3]
    have := (zfill_digits 4 hs.2.2.2.2.2.1).2
    omega

/-- Witness for C7 at the candidate `PO 1-2` (re-parsed prefix `PO`): the
output is `PO-21-0002`, whose middle segment starts with `'2'`. -/
theorem autocorrect_match_locked_witness :
    ∃ b t, autocorrect_match "PO 1-2".data = "PO".data ++ '-' :: '2' :: b :: '-' :: t ∧
      isDig b = true ∧ t.all isDig = true ∧ t.length = 4 :=
  autocorrect_match_locked "PO 1-2".data "PO".data ['1'] ['2'] (by decide) (by decide)

/-! ## Exact head computation of the re-parse (greedy first result) -/

theorem head?_flatMap {α β : Type} {l : List α} {f : α → List β} {x : α} {y : β}
    (hl : l.head? = some x) (hf : (f x).head? = some y) :
    (l.flatMap f).head? = some y := by
  cases l with
  | nil => cases hl
  | cons a t =>
    rw [List.head?_cons] at hl
    injection hl with ha
    subst ha
    cases hfx : f a with
    | nil => rw [hfx] at hf; cases hf
    | cons b u =>
      rw [hfx] at hf
      rw [List.head?_cons] at hf
      injection hf with hb
      subst hb
      rw [List.flatMap_cons, hfx]
      rfl

theorem range_head {m : Nat} (h : 0 < m) : (List.range m).head? = some 0 := by
  cases m with
  | zero => omega
  | succ k => rw [List.range_succ_eq_map]; rfl

theorem repAlts_head (p : Char → Bool) (n : Nat) (c r : Str)
    (hc : c.all p = true) (hne : c ≠ []) (hlen : c.length ≤ n)
    (hr : r = [] ∨ ∃ x xs, r = x :: xs ∧ p x = false) :
    (repAlts p n (c ++ r)).head? = some (c, r) := by
  have htwr : r.takeWhile p = [] := by
    rcases hr with rfl | ⟨x, xs, rfl, hx⟩
    · rfl
    · rw [List.takeWhile_cons_of_neg]
      simp [hx]
  have htw : (((c ++ r).takeWhile p)).take n = c := by
    rw [takeWhile_append_all hc, htwr, List.append_nil, List.take_of_length_le hlen]
  simp only [repAlts, htw]
  rw [List.head?_map, range_head (List.length_pos.mpr hne)]
  simp only [Option.map_some', Nat.sub_zero, List.take_length, List.drop_length,
    List.drop_left, List.nil_append]

theorem optAlts_head_dash (r : Str) :
    (optAlts '-' ('-' :: r)).head? = some (['-'], r) := by
  simp [optAlts]

theorem reParse_canonical (P m t : Str)
    (hP : P.all isUp = true) (hPne : P ≠ [])
    (hm : m.all isDig = true) (hmlen : m.length = 2)
    (ht : t.all isDig = true) (htlen : t.length = 4) :
    reParse (P ++ '-' :: (m ++ '-' :: t)) = some (P, m, t) := by
  have hmne : m ≠ [] := by
    intro h; rw [h] at hmlen; cases hmlen
  have htne : t ≠ [] := by
    intro h; rw [h] at htlen; cases htlen
  have h1 : (repAlts isUp (P ++ '-' :: (m ++ '-' :: t)).length
      (P ++ '-' :: (m ++ '-' :: t))).head? = some (P, '-' :: (m ++ '-' :: t)) := by
    apply repAlts_head isUp _ P ('-' :: (m ++ '-' :: t)) hP hPne
    · simp only [List.length_append, List.length_cons]
      omega
    · right
      exact ⟨'-', m ++ '-' :: t, rfl, by decide⟩
  have h2 : (optAlts '-' ('-' :: (m ++ '-' :: t))).head? = some (['-'], m ++ '-' :: t) :=
    optAlts_head_dash (m ++ '-' :: t)
  have h3 : (repAlts isDig 2 (m ++ '-' :: t)).head? = some (m, '-' :: t) := by
    apply repAlts_head isDig 2 m ('-' :: t) hm hmne (by omega)
    right
    exact ⟨'-', t, rfl, by decide⟩
  have h4 : (optAlts '-' ('-' :: t)).head? = some (['-'], t) := optAlts_head_dash t
  have h5 : (repAlts isDig 4 t).head? = some (t, []) := by
    have h := repAlts_head isDig 4 t [] ht htne (by omega) (Or.inl rfl)
    rwa [List.append_nil] at h
  have hrp : (reParseAlts (P ++ '-' :: (m ++ '-' :: t))).head? = some ((P, m, t), []) := by
    unfold reParseAlts
    apply head?_flatMap h1
    apply head?_flatMap h2
    apply head?_flatMap h3
    apply head?_flatMap h4
    rw [List.head?_map, h5]
    rfl
  rw [reParse, hrp]
  rfl

/-! ## The substitution ladder on canonical shapes -/

theorem takeWhile_len_le (p : Char → Bool) : ∀ l : Str, (l.takeWhile p).length ≤ l.length := by
  intro l
  induction l with
  | nil => simp
  | cons c cs ih =>
    by_cases hp : p c
    · rw [List.takeWhile_cons_of_pos hp]
      simp only [List.length_cons]
      omega
    · rw [List.takeWhile_cons_of_neg hp]
      simp

theorem takeWhile_drop (p : Char → Bool) (l : Str) :
    l.takeWhile p ++ l.drop (l.takeWhile p).length = l := by
  have h := runSplit p l.length l
  rwa [List.take_of_length_le (takeWhile_len_le p l)] at h

theorem stripAndSub_canonical (P R : Str)
    (hP : P.all isUp = true) (hne : P ≠ [])
    (hnosp : ∀ c ∈ R, ¬ c = ' ') :
    stripAndSub (P ++ '-' :: R) =
      (if P = ['P', 'Q'] then ['P', 'O']
       else if P = ['R', 'N', 'W'] then ['R', 'N', 'W', 'S'] else P) ++ '-' :: R := by
  have hfil : (P ++ '-' :: R).filter (fun c => !(c == ' ')) = P ++ '-' :: R := by
    rw [List.filter_eq_self]
    intro a ha
    rw [List.mem_append, List.mem_cons] at ha
    rcases ha with ha | rfl | ha
    · simp [up_ne_space (up_of_mem hP ha)]
    · decide
    · simp [hnosp a ha]
  rcases P with _ | ⟨p1, P1⟩
  · exact absurd rfl hne
  have hp1 : isUp p1 = true := by
    simp only [List.all_cons, Bool.and_eq_true] at hP
    exact hP.1
  have hP1 : P1.all isUp = true := by
    simp only [List.all_cons, Bool.and_eq_true] at hP
    exact hP.2
  have h5a : ("5P0-".data.isPrefixOf ((p1 :: P1) ++ '-' :: R)) = false := by
    cases hb : "5P0-".data.isPrefixOf ((p1 :: P1) ++ '-' :: R) with
    | false => rfl
    | true =>
      exfalso
      obtain ⟨t, ht⟩ := (isPrefixOf_iff _ _).mp hb
      simp only [List.cons_append, List.nil_append] at ht
      injection ht with h1 _
      exact up_ne_char hp1 (by decide) h1
  have h5b : ("56R-".data.isPrefixOf ((p1 :: P1) ++ '-' :: R)) = false := by
    cases hb : "56R-".data.isPrefixOf ((p1 :: P1) ++ '-' :: R) with
    | false => rfl
    | true =>
      exfalso
      obtain ⟨t, ht⟩ := (isPrefixOf_iff _ _).mp hb
      simp only [List.cons_append, List.nil_append] at ht
      injection ht with h1 _
      exact up_ne_char hp1 (by decide) h1
  rcases P1 with _ | ⟨p2, P2⟩
  · -- P = [p1]
    have hA : ("P0-".data.isPrefixOf ((p1 :: ([] : Str)) ++ '-' :: R)) = false := by
      cases hb : "P0-".data.isPrefixOf ((p1 :: ([] : Str)) ++ '-' :: R) with
      | false => rfl
      | true =>
        exfalso
        obtain ⟨t, ht⟩ := (isPrefixOf_iff _ _).mp hb
        simp only [List.cons_append, List.nil_append] at ht
        injection ht with _ ht2
        injection ht2 with h2 _
        exact absurd h2 (by decide)
    have hB : ("PQ-".data.isPrefixOf ((p1 :: ([] : Str)) ++ '-' :: R)) = false := by
      cases hb : "PQ-".data.isPrefixOf ((p1 :: ([] : Str)) ++ '-' :: R) with
      | false => rfl
      | true =>
        exfalso
        obtain ⟨t, ht⟩ := (isPrefixOf_iff _ _).mp hb
        simp only [List.cons_append, List.nil_append] at ht
        injection ht with _ ht2
        injection ht2 with h2 _
        exact absurd h2 (by decide)
    have hC : ("RNW-".data.isPrefixOf ((p1 :: ([] : Str)) ++ '-' :: R)) = false := by
      cases hb : "RNW-".data.isPrefixOf ((p1 :: ([] : Str)) ++ '-' :: R) with
      | false => rfl
      | true =>
        exfalso
        obtain ⟨t, ht⟩ := (isPrefixOf_iff _ _).mp hb
        simp only [List.cons_append, List.nil_append] at ht
        injection ht with _ ht2
        injection ht2 with h2 _
        exact absurd h2 (by decide)
    unfold stripAndSub
    rw [hfil]
    simp only [hA, hB, hC, h5a, h5b, Bool.false_eq_true, if_false]
    rw [if_neg (by simp), if_neg (by simp)]
  · -- P = p1 :: p2 :: P2
    have hp2 : isUp p2 = true := by
      simp only [List.all_cons, Bool.and_eq_true] at hP1
      exact hP1.1
    have hP2 : P2.all isUp = true := by
      simp only [List.all_cons, Bool.and_eq_true] at hP1
      exact hP1.2
    have hA : ("P0-".data.isPrefixOf ((p1 :: p2 :: P2) ++ '-' :: R)) = false := by
      cases hb : "P0-".data.isPrefixOf ((p1 :: p2 :: P2) ++ '-' :: R) with
      | false => rfl
      | true =>
        exfalso
        obtain ⟨t, ht⟩ := (isPrefixOf_iff _ _).mp hb
        simp only [List.cons_append, List.nil_append] at ht
        injection ht with _ ht2
        injection ht2 with h2 _
        exact up_ne_char hp2 (by decide) h2
    by_cases hpq : p1 = 'P' ∧ p2 = 'Q'
    · obtain ⟨rfl, rfl⟩ := hpq
      have hC : ("RNW-".data.isPrefixOf (('P' :: 'Q' :: P2) ++ '-' :: R)) = false := by
        cases hb : "RNW-".data.isPrefixOf (('P' :: 'Q' :: P2) ++ '-' :: R) with
        | false => rfl
        | true =>
          exfalso
          obtain ⟨t, ht⟩ := (isPrefixOf_iff _ _).mp hb
          simp only [List.cons_append, List.nil_append] at ht
          injection ht with h1 _
          exact absurd h1 (by decide)
      rcases P2 with _ | ⟨p3, P3⟩
      · -- P = "PQ": the substitution fires
        have hB : ("PQ-".data.isPrefixOf (('P' :: 'Q' :: ([] : Str)) ++ '-' :: R)) = true :=
          (isPrefixOf_iff _ _).mpr ⟨R, rfl⟩
        unfold stripAndSub
        rw [hfil]
        simp only [hA, hB, Bool.false_eq_true, if_false, if_true]
        simp
      · -- P = 'P' :: 'Q' :: p3 :: P3: too long for "PQ-"
        have hp3 : isUp p3 = true := by
          simp only [List.all_cons, Bool.and_eq_true] at hP2
          exact hP2.1
        have hB : ("PQ-".data.isPrefixOf (('P' :: 'Q' :: p3 :: P3) ++ '-' :: R)) = false := by
          cases hb : "PQ-".data.isPrefixOf (('P' :: 'Q' :: p3 :: P3) ++ '-' :: R) with
          | false => rfl
          | true =>
            exfalso
            obtain ⟨t, ht⟩ := (isPrefixOf_iff _ _).mp hb
            simp only [List.cons_append, List.nil_append] at ht
            injection ht with _ ht2
            injection ht2 with _ ht3
            injection ht3 with h3 _
            exact up_ne_char hp3 (by decide) h3
        unfold stripAndSub
        rw [hfil]
        simp only [hA, hB, hC, h5a, h5b, Bool.false_eq_true, if_false]
        rw [if_neg (by simp), if_neg (by simp)]
    · -- p1, p2 not 'P','Q'
      have hB : ("PQ-".data.isPrefixOf ((p1 :: p2 :: P2) ++ '-' :: R)) = false := by
        cases hb : "PQ-".data.isPrefixOf ((p1 :: p2 :: P2) ++ '-' :: R) with
        | false => rfl
        | true =>
          exfalso
          obtain ⟨t, ht⟩ := (isPrefixOf_iff _ _).mp hb
          simp only [List.cons_append, List.nil_append] at ht
          injection ht with h1 ht2
          injection ht2 with h2 _
          exact hpq ⟨h1, h2⟩
      have hnepq : ¬ (p1 :: p2 :: P2 = ['P', 'Q']) := by
        intro h
        injection h with h1 h'
        injection h' with h2 _
        exact hpq ⟨h1, h2⟩
      rcases P2 with _ | ⟨p3, P3⟩
      · -- P = [p1, p2], cannot match "RNW-"
        have hC : ("RNW-".data.isPrefixOf ((p1 :: p2 :: ([] : Str)) ++ '-' :: R)) = false := by
          cases hb : "RNW-".data.isPrefixOf ((p1 :: p2 :: ([] : Str)) ++ '-' :: R) with
          | false => rfl
          | true =>
            exfalso
            obtain ⟨t, ht⟩ := (isPrefixOf_iff _ _).mp hb
            simp only [List.cons_append, List.nil_append] at ht
            injection ht with _ ht2
            injection ht2 with _ ht3
            injection ht3 with h3 _
            exact absurd h3 (by decide)
        unfold stripAndSub
        rw [hfil]
        simp only [hA, hB, hC, h5a, h5b, Bool.false_eq_true, if_false]
        rw [if_neg hnepq, if_neg (by simp)]
      · have hp3 : isUp p3 = true := by
          simp only [List.all_cons, Bool.and_eq_true] at hP2
          exact hP2.1
        have hP3 : P3.all isUp = true := by
          simp only [List.all_cons, Bool.and_eq_true] at hP2
          exact hP2.2
        by_cases hrnw : p1 = 'R' ∧ p2 = 'N' ∧ p3 = 'W'
        · obtain ⟨rfl, rfl, rfl⟩ := hrnw
          rcases P3 with _ | ⟨p4, P4⟩
          · -- P = "RNW": the substitution fires
            have hC : ("RNW-".data.isPrefixOf
                (('R' :: 'N' :: 'W' :: ([] : Str)) ++ '-' :: R)) = true :=
              (isPrefixOf_iff _ _).mpr ⟨R, rfl⟩
            unfold stripAndSub
            rw [hfil]
            simp only [hA, hB, hC, Bool.false_eq_true, if_false, if_true]
            simp
          · have hp4 : isUp p4 = true := by
              simp only [List.all_cons, Bool.and_eq_true] at hP3
              exact hP3.1
            have hC : ("RNW-".data.isPrefixOf
                (('R' :: 'N' :: 'W' :: p4 :: P4) ++ '-' :: R)) = false := by
              cases hb : "RNW-".data.isPrefixOf (('R' :: 'N' :: 'W' :: p4 :: P4) ++ '-' :: R) with
              | false => rfl
              | true =>
                exfalso
                obtain ⟨t, ht⟩ := (isPrefixOf_iff _ _).mp hb
                simp only [List.cons_append, List.nil_append] at ht
                injection ht with _ ht2
                injection ht2 with _ ht3
                injection ht3 with _ ht4
                injection ht4 with h4 _
                exact up_ne_char hp4 (by decide) h4
            unfold stripAndSub
            rw [hfil]
            simp only [hA, hB, hC, h5a, h5b, Bool.false_eq_true, if_false]
            rw [if_neg hnepq, if_neg (by simp)]
        · have hC : ("RNW-".data.isPrefixOf ((p1 :: p2 :: p3 :: P3) ++ '-' :: R)) = false := by
            cases hb : "RNW-".data.isPrefixOf ((p1 :: p2 :: p3 :: P3) ++ '-' :: R) with
            | false => rfl
            | true =>
              exfalso
              obtain ⟨t, ht⟩ := (isPrefixOf_iff _ _).mp hb
              simp only [List.cons_append, List.nil_append] at ht
              injection ht with h1 ht2
              injection ht2 with h2 ht3
              injection ht3 with h3 _
              exact hrnw ⟨h1, h2, h3⟩
          have hnernw : ¬ (p1 :: p2 :: p3 :: P3 = ['R', 'N', 'W']) := by
            intro h
            injection h with h1 h'
            injection h' with h2 h''
            injection h'' with h3 _
            exact hrnw ⟨h1, h2, h3⟩
          unfold stripAndSub
          rw [hfil]
          simp only [hA, hB, hC, h5a, h5b, Bool.false_eq_true, if_false]
          rw [if_neg hnepq, if_neg hnernw]

theorem auto_of_sub {x Q : Str} {a b c d e f : Char}
    (hQup : Q.all isUp = true) (hQne : Q ≠ [])
    (hda : isDig a = true) (hdb : isDig b = true) (hdc : isDig c = true)
    (hdd : isDig d = true) (hde : isDig e = true) (hdf : isDig f = true)
    (hsub : stripAndSub x = Q ++ '-' :: a :: b :: '-' :: c :: d :: e :: f :: []) :
    autocorrect_match x =
      Q ++ '-' :: (if lockTokens.contains Q then ['2', b] else [a, b])
        ++ '-' :: c :: d :: e :: f :: [] := by
  have hrp : reParse (stripAndSub x) = some (Q, [a, b], [c, d, e, f]) := by
    rw [hsub]
    have h := reParse_canonical Q [a, b] [c, d, e, f] hQup hQne
      (by simp [hda, hdb]) rfl (by simp [hdc, hdd, hde, hdf]) rfl
    simpa using h
  have ez2 : zfill 2 [a, b] = [a, b] := by
    rw [zfill.eq_def, if_pos (by simp)]
  have ez4 : zfill 4 [c, d, e, f] = [c, d, e, f] := by
    rw [zfill.eq_def, if_pos (by simp)]
  have er2 : replaceConfusions [a, b] = [a, b] :=
    replaceConfusions_id (by simp [hda, hdb])
  have er4 : replaceConfusions [c, d, e, f] = [c, d, e, f] :=
    replaceConfusions_id (by simp [hdc, hdd, hde, hdf])
  unfold autocorrect_match
  simp only [hrp, ez2, ez4, er2, er4, List.drop_succ_cons, List.drop_zero]

/-! ## Idempotence on canonical inputs: claim C6 -/

theorem nosp6 {u v c d e f : Char} (h1 : isDig u = true) (h2 : isDig v = true)
    (h3 : isDig c = true) (h4 : isDig d = true) (h5 : isDig e = true)
    (h6 : isDig f = true) :
    ∀ ch ∈ (u :: v :: '-' :: c :: d :: e :: f :: [] : Str), ¬ ch = ' ' := by
  intro ch hch
  simp only [List.mem_cons, List.not_mem_nil, or_false] at hch
  rcases hch with rfl | rfl | rfl | rfl | rfl | rfl | rfl
  exacts [dig_ne_space h1, dig_ne_space h2, by decide, dig_ne_space h3,
    dig_ne_space h4, dig_ne_space h5, dig_ne_space h6]

/-- Claim C6: `autocorrect_match` is idempotent on canonical inputs: for
every string that already matches the canonical form `^[A-Z]+-\d{2}-\d{4}$`,
applying `autocorrect_match` twice gives the same result as applying it
once (the only changes a second pass could make — prefix substitution and
the middle-digit lock — are already stable on the first pass's output). -/
theorem autocorrect_match_idem (x : Str) (hx : isCanonical x = true) :
    autocorrect_match (autocorrect_match x) = autocorrect_match x := by
  unfold isCanonical at hx
  rw [Bool.and_eq_true] at hx
  obtain ⟨hlen, hshape⟩ := hx
  rw [decide_eq_true_eq] at hlen
  split at hshape
  case h_2 => cases hshape
  case h_1 a b c d e f heq =>
    simp only [Bool.and_eq_true] at hshape
    obtain ⟨⟨⟨⟨⟨hda, hdb⟩, hdc⟩, hdd⟩, hde⟩, hdf⟩ := hshape
    set P := x.takeWhile isUp with hPdef
    have hPup : P.all isUp = true := by
      rw [List.all_eq_true]
      intro u hu
      exact List.mem_takeWhile_imp hu
    have hPne : P ≠ [] := by
      intro h
      rw [h] at hlen
      simp at hlen
    have hx2 : x = P ++ '-' :: a :: b :: '-' :: c :: d :: e :: f :: [] := by
      have hsplit := takeWhile_drop isUp x
      rw [heq] at hsplit
      exact hsplit.symm
    have hsub1 : stripAndSub x =
        (if P = ['P', 'Q'] then ['P', 'O']
         else if P = ['R', 'N', 'W'] then ['R', 'N', 'W', 'S'] else P)
          ++ '-' :: a :: b :: '-' :: c :: d :: e :: f :: [] := by
      rw [hx2]
      exact stripAndSub_canonical P _ hPup hPne (nosp6 hda hdb hdc hdd hde hdf)
    set Q := (if P = ['P', 'Q'] then ['P', 'O']
         else if P = ['R', 'N', 'W'] then ['R', 'N', 'W', 'S'] else P) with hQdef
    have hQup : Q.all isUp = true := by
      rw [hQdef]
      split_ifs
      · decide
      · decide
      · exact hPup
    have hQne : Q ≠ [] := by
      rw [hQdef]
      split_ifs
      · decide
      · decide
      · exact hPne
    have hQnePQ : ¬ (Q = ['P', 'Q']) := by
      rw [hQdef]
      split_ifs with h1 h2
      · decide
      · decide
      · exact h1
    have hQneRNW : ¬ (Q = ['R', 'N', 'W']) := by
      rw [hQdef]
      split_ifs with h1 h2
      · decide
      · decide
      · exact h2
    have hy := auto_of_sub hQup hQne hda hdb hdc hdd hde hdf hsub1
    by_cases hlock : lockTokens.contains Q = true
    · have hmem : Q ∈ lockTokens := (contains_iff_mem lockTokens Q).mp hlock
      have hy' : autocorrect_match x =
          Q ++ '-' :: '2' :: b :: '-' :: c :: d :: e :: f :: [] := by
        rw [hy]
        simp [hlock, hmem]
      have hsub2 : stripAndSub (autocorrect_match x) =
          Q ++ '-' :: '2' :: b :: '-' :: c :: d :: e :: f :: [] := by
        rw [hy']
        have h := stripAndSub_canonical Q ('2' :: b :: '-' :: c :: d :: e :: f :: [])
          hQup hQne (nosp6 (by decide) hdb hdc hdd hde hdf)
        rw [if_neg hQnePQ, if_neg hQneRNW] at h
        exact h
      have hy2 := auto_of_sub hQup hQne (by decide) hdb hdc hdd hde hdf hsub2
      rw [hy2, hy']
      simp [hlock, hmem]
    · have hnmem : ¬ Q ∈ lockTokens := fun hm => hlock ((contains_iff_mem lockTokens Q).mpr hm)
      have hy' : autocorrect_match x =
          Q ++ '-' :: a :: b :: '-' :: c :: d :: e :: f :: [] := by
        rw [hy]
        simp [hlock, hnmem]
      have hsub2 : stripAndSub (autocorrect_match x) =
          Q ++ '-' :: a :: b :: '-' :: c :: d :: e :: f :: [] := by
        rw [hy']
        have h := stripAndSub_canonical Q (a :: b :: '-' :: c :: d :: e :: f :: [])
          hQup hQne (nosp6 hda hdb hdc hdd hde hdf)
        rw [if_neg hQnePQ, if_neg hQneRNW] at h
        exact h
      have hy2 := auto_of_sub hQup hQne hda hdb hdc hdd hde hdf hsub2
      rw [hy2, hy']
      simp [hlock, hnmem]

/-- Witness for C6 at the canonical input `SGR-14-0922`. -/
theorem autocorrect_match_idem_witness :
    isCanonical "SGR-14-0922".data = true ∧
    autocorrect_match (autocorrect_match "SGR-14-0922".data) =
      autocorrect_match "SGR-14-0922".data :=
  ⟨by decide, autocorrect_match_idem "SGR-14-0922".data (by decide)⟩

/-! ## Candidate strings always autocorrect to canonical form: claim C4 -/

theorem length_eq_four {l : Str} (h : l.length = 4) :
    ∃ a b c d, l = [a, b, c, d] := by
  rcases l with _ | ⟨a, _ | ⟨b, _ | ⟨c, _ | ⟨d, _ | ⟨e, t⟩⟩⟩⟩⟩ <;> simp_all
  
theorem isCanonical_build {p s2 s4 : Str} (hp : p.all isUp = true)
    (hne : 1 ≤ p.length) (h2 : s2.all isDig = true) (hl2 : s2.length = 2)
    (h4 : s4.all isDig = true) (hl4 : s4.length = 4) :
    isCanonical (p ++ '-' :: s2 ++ '-' :: s4) = true := by
  obtain ⟨u, v, rfl⟩ := List.length_eq_two.mp hl2
  obtain ⟨k1, k2, k3, k4, rfl⟩ := length_eq_four hl4
  simp only [List.all_cons, Bool.and_eq_true, and_true] at h2 h4
  have hflat : (p ++ '-' :: [u, v] ++ '-' :: [k1, k2, k3, k4]) =
      p ++ ('-' :: u :: v :: '-' :: k1 :: k2 :: k3 :: k4 :: []) := by simp
  rw [hflat]
  have htw : ((p ++ ('-' :: u :: v :: '-' :: k1 :: k2 :: k3 :: k4 :: [])).takeWhile isUp) = p := by
    rw [takeWhile_append_all hp, List.takeWhile_cons_of_neg (by decide), List.append_nil]
  have hdr : ((p ++ ('-' :: u :: v :: '-' :: k1 :: k2 :: k3 :: k4 :: [])).drop p.length) =
      '-' :: u :: v :: '-' :: k1 :: k2 :: k3 :: k4 :: [] :=
    List.drop_left p _
  simp only [isCanonical, htw, hdr]
  show (decide (1 ≤ p.length) &&
    (isDig u && isDig v && isDig k1 && isDig k2 && isDig k3 && isDig k4)) = true
  simp only [Bool.and_eq_true, decide_eq_true_eq]
  exact ⟨hne, ⟨⟨⟨⟨h2.1, h2.2.1⟩, h4.1⟩, h4.2.1⟩, h4.2.2.1⟩, h4.2.2.2.1⟩

theorem auto_canonical_of_some {m : Str} {g : Str × Str × Str}
    (hp : reParse (stripAndSub m) = some g) :
    isCanonical (autocorrect_match m) = true := by
  obtain ⟨p, g2, g3⟩ := g
  have hs := reParse_sound hp
  have hz2 := zfill_digits 2 hs.2.2.1
  have e2 : replaceConfusions (zfill 2 g2) = zfill 2 g2 := replaceConfusions_id hz2.1
  have hz4 := zfill_digits 4 hs.2.2.2.2.2.1
  have e4 : replaceConfusions (zfill 4 g3) = zfill 4 g3 := replaceConfusions_id hz4.1
  have hlen2 : (zfill 2 g2).length = 2 := by
    have h1 := hs.2.2.2.1
    have h2 := hs.2.2.2.2.1
    omega
  have hlen4 : (zfill 4 g3).length = 4 := by
    have h1 := hs.2.2.2.2.2.2.1
    have h2 := hs.2.2.2.2.2.2.2
    omega
  have hs2dig : (if lockTokens.contains p then
      '2' :: (replaceConfusions (zfill 2 g2)).drop 1
      else replaceConfusions (zfill 2 g2)).all isDig = true := by
    rw [e2]
    by_cases hl : lockTokens.contains p = true
    · rw [if_pos hl]
      simp only [List.all_cons, Bool.and_eq_true]
      refine ⟨by decide, ?_⟩
      rw [List.all_eq_true]
      intro c hc
      exact (List.all_eq_true.mp hz2.1) c (List.mem_of_mem_drop hc)
    · rw [if_neg hl]
      exact hz2.1
  have hs2len : (if lockTokens.contains p then
      '2' :: (replaceConfusions (zfill 2 g2)).drop 1
      else replaceConfusions (zfill 2 g2)).length = 2 := by
    rw [e2]
    by_cases hl : lockTokens.contains p = true
    · rw [if_pos hl]
      simp only [List.length_cons, List.length_drop, hlen2]
    · rw [if_neg hl]
      exact hlen2
  unfold autocorrect_match
  simp only [hp]
  exact isCanonical_build hs.1 hs.2.1 hs2dig hs2len
    (by rw [e4]; exact hz4.1) (by rw [e4]; exact hlen4)

theorem reParse_some_of_tail (T E : Str) (hT : T.all isUp = true) (hTne : 1 ≤ T.length)
    (htail : ∃ o1 g2 o2 g3 rest,
      (o1 = ([] : Str) ∨ o1 = ['-']) ∧ (o2 = ([] : Str) ∨ o2 = ['-']) ∧
      g2.all isDig = true ∧ 1 ≤ g2.length ∧ g2.length ≤ 2 ∧
      g3.all isDig = true ∧ 1 ≤ g3.length ∧ g3.length ≤ 4 ∧
      E = o1 ++ (g2 ++ (o2 ++ (g3 ++ rest)))) :
    ∃ g, reParse (T ++ E) = some g := by
  obtain ⟨o1, g2, o2, g3, rest, ho1, ho2, hg2, h2a, h2b, hg3, h3a, h3b, rfl⟩ := htail
  exact reParse_isSome_of_mem
    (reParseAlts_intro hT hTne ho1 hg2 h2a h2b ho2 hg3 h3a h3b)

theorem not_eq_true_of_eq_false {b : Bool} (h : b = false) : ¬ b = true := by
  simp [h]

theorem filter_nospace {s : Str} (h : ∀ c ∈ s, ¬ c = ' ') :
    s.filter (fun c => !(c == ' ')) = s := by
  rw [List.filter_eq_self]
  intro a ha
  simp [h a ha]

theorem stripAndSub_filter (m0 : Str) :
    stripAndSub m0 = stripAndSub (m0.filter (fun c => !(c == ' '))) := by
  have h : (m0.filter (fun c => !(c == ' '))).filter (fun c => !(c == ' '))
      = m0.filter (fun c => !(c == ' ')) :=
    List.filter_eq_self.mpr (fun a ha => (List.mem_filter.mp ha).2)
  simp only [stripAndSub, h]

theorem filter_cand {t ed d1 d2 : Str} (sp dsh : Str)
    (htn : ∀ c ∈ t, ¬ c = ' ') (hsp : sp = ([] : Str) ∨ sp = [' '])
    (hedn : ∀ c ∈ ed, ¬ c = ' ') (hdsh : dsh = ([] : Str) ∨ dsh = ['-'])
    (hd1n : ∀ c ∈ d1, ¬ c = ' ') (hd2n : ∀ c ∈ d2, ¬ c = ' ') :
    (t ++ sp ++ ed ++ dsh ++ d1 ++ '-' :: d2).filter (fun c => !(c == ' '))
      = t ++ (ed ++ (dsh ++ (d1 ++ '-' :: d2))) := by
  have hdashd2 : ∀ c ∈ ('-' :: d2), ¬ c = ' ' := by
    intro c hc
    rcases List.mem_cons.mp hc with rfl | hc
    · decide
    · exact hd2n c hc
  have e5 : sp.filter (fun c => !(c == ' ')) = [] := by
    rcases hsp with rfl | rfl <;> rfl
  have e6 : dsh.filter (fun c => !(c == ' ')) = dsh := by
    rcases hdsh with rfl | rfl <;> rfl
  simp only [List.filter_append, filter_nospace htn, filter_nospace hedn,
    filter_nospace hd1n, filter_nospace hdashd2, e5, e6, List.append_assoc,
    List.nil_append, List.append_nil]

theorem cand_nospace (t : Str) {ed dsh d1 d2 : Str}
    (htn : ∀ c ∈ t, ¬ c = ' ') (hedn : ∀ c ∈ ed, ¬ c = ' ')
    (hdshn : ∀ c ∈ dsh, ¬ c = ' ')
    (hd1n : ∀ c ∈ d1, ¬ c = ' ') (hd2n : ∀ c ∈ d2, ¬ c = ' ') :
    ∀ c ∈ t ++ (ed ++ (dsh ++ (d1 ++ '-' :: d2))), ¬ c = ' ' := by
  intro c hc
  simp only [List.mem_append, List.mem_cons] at hc
  rcases hc with hc | hc | hc | hc | rfl | hc
  · exact htn c hc
  · exact hedn c hc
  · exact hdshn c hc
  · exact hd1n c hc
  · decide
  · exact hd2n c hc

theorem stripAndSub_nosub {m : Str} (hns : ∀ c ∈ m, ¬ c = ' ')
    (h1 : ¬ List.isPrefixOf "P0-".data m = true)
    (h2 : ¬ List.isPrefixOf "PQ-".data m = true)
    (h3 : ¬ List.isPrefixOf "RNW-".data m = true)
    (h4 : ¬ List.isPrefixOf "5P0-".data m = true)
    (h5 : ¬ List.isPrefixOf "56R-".data m = true) :
    stripAndSub m = m := by
  simp only [stripAndSub, filter_nospace hns]
  rw [if_neg h1, if_neg h2, if_neg h3, if_neg h4, if_neg h5]

theorem cand_tail_parses (T : Str) (hT : T.all isUp = true) (hTne : 1 ≤ T.length)
    {ed dsh d1 d2 : Str}
    (hed : ed = ([] : Str) ∨ ∃ d, isDig d = true ∧ ed = [d])
    (hdsh : dsh = ([] : Str) ∨ dsh = ['-'])
    (hd1 : d1.all isDig = true) (h1a : 1 ≤ d1.length) (h1b : d1.length ≤ 2)
    (hd2 : d2.all isDig = true) (h2a : 1 ≤ d2.length) (h2b : d2.length ≤ 4) :
    ∃ g, reParse (T ++ (ed ++ (dsh ++ (d1 ++ '-' :: d2)))) = some g := by
  rcases hed with rfl | ⟨e, he, rfl⟩
  · exact reParse_some_of_tail T ([] ++ (dsh ++ (d1 ++ '-' :: d2))) hT hTne
      ⟨dsh, d1, ['-'], d2, [], hdsh, Or.inr rfl, hd1, h1a, h1b, hd2, h2a, h2b, by simp⟩
  · exact reParse_some_of_tail T ([e] ++ (dsh ++ (d1 ++ '-' :: d2))) hT hTne
      ⟨[], [e], dsh, d1, '-' :: d2, Or.inl rfl, hdsh, by simp [he],
        by simp only [List.length_singleton]; omega, by simp only [List.length_singleton]; omega,
        hd1, h1a, by omega, by simp⟩

theorem stripAndSub_cand_parses {m : Str} (h : UCand m) :
    ∃ g, reParse (stripAndSub m) = some g := by
  obtain ⟨t, sp, ed, dsh, d1, d2, ht, hsp, hed, hdsh, hd1, h1a, h1b, hd2, h2a, h2b, rfl⟩ := h
  have hedn : ∀ c ∈ ed, ¬ c = ' ' := by
    rcases hed with rfl | ⟨d, hd, rfl⟩
    · intro c hc
      exact absurd hc (List.not_mem_nil c)
    · intro c hc
      rw [List.mem_singleton] at hc
      subst hc
      exact dig_ne_space hd
  have hdshn : ∀ c ∈ dsh, ¬ c = ' ' := by
    rcases hdsh with rfl | rfl
    · intro c hc
      exact absurd hc (List.not_mem_nil c)
    · intro c hc
      rw [List.mem_singleton] at hc
      subst hc
      decide
  have hd1n : ∀ c ∈ d1, ¬ c = ' ' := fun c hc => dig_ne_space (List.all_eq_true.mp hd1 c hc)
  have hd2n : ∀ c ∈ d2, ¬ c = ' ' := fun c hc => dig_ne_space (List.all_eq_true.mp hd2 c hc)
  simp only [candTokens, List.mem_cons, List.not_mem_nil, or_false] at ht
  have htn : ∀ c ∈ t, ¬ c = ' ' := by
    rcases ht with rfl | rfl | rfl | rfl | rfl | rfl <;> decide
  rw [stripAndSub_filter, filter_cand sp dsh htn hsp hedn hdsh hd1n hd2n]
  rcases ht with rfl | rfl | rfl | rfl | rfl | rfl
  · -- token `P0`
    rcases hed with rfl | ⟨e, he, rfl⟩
    · rcases hdsh with rfl | rfl
      · -- `P0` directly followed by the first digit group: no substitution fires
        obtain ⟨a, d1t, rfl⟩ : ∃ a d1t, d1 = a :: d1t := by
          cases d1 with
          | nil => simp at h1a
          | cons a d1t => exact ⟨a, d1t, rfl⟩
        have ha : isDig a = true := List.all_eq_true.mp hd1 a (List.mem_cons_self a d1t)
        have hda : ('-' == a) = false := beq_eq_false_iff_ne.mpr (Ne.symm (dig_ne_dash ha))
        have h1 : ¬ List.isPrefixOf "P0-".data
            ("P0".data ++ ([] ++ ([] ++ (a :: d1t ++ '-' :: d2)))) = true := by
          show ¬ (('P' == 'P') && (('0' == '0') && (('-' == a) &&
            List.isPrefixOf ([] : Str) (d1t ++ '-' :: d2)))) = true
          simp [hda]
        rw [stripAndSub_nosub (cand_nospace "P0".data (by decide) hedn hdshn hd1n hd2n) h1
          (not_eq_true_of_eq_false rfl) (not_eq_true_of_eq_false rfl)
          (not_eq_true_of_eq_false rfl) (not_eq_true_of_eq_false rfl)]
        exact reParse_some_of_tail ['P'] ('0' :: (a :: d1t ++ '-' :: d2)) (by decide) (by decide)
          ⟨[], ['0'], [], a :: d1t, '-' :: d2, Or.inl rfl, Or.inl rfl, by decide, by decide,
            by decide, hd1, h1a, by omega, by simp⟩
      · -- `P0-`: the line-108 substitution rewrites the head to `PO`
        have hss : stripAndSub ("P0".data ++ ([] ++ (['-'] ++ (d1 ++ '-' :: d2))))
            = "PO".data ++ ('-' :: (d1 ++ '-' :: d2)) := by
          simp only [stripAndSub,
            filter_nospace (cand_nospace "P0".data (by decide) hedn hdshn hd1n hd2n)]
          rw [if_pos ((isPrefixOf_iff "P0-".data
            ("P0".data ++ ([] ++ (['-'] ++ (d1 ++ '-' :: d2))))).mpr
            ⟨d1 ++ '-' :: d2, rfl⟩)]
          rfl
        rw [hss]
        exact reParse_some_of_tail "PO".data ('-' :: (d1 ++ '-' :: d2)) (by decide) (by decide)
          ⟨['-'], d1, ['-'], d2, [], Or.inr rfl, Or.inr rfl, hd1, h1a, h1b, hd2, h2a, h2b,
            by simp⟩
    · -- `P0` followed by the optional extra digit: no substitution fires
      have hda : ('-' == e) = false := beq_eq_false_iff_ne.mpr (Ne.symm (dig_ne_dash he))
      have h1 : ¬ List.isPrefixOf "P0-".data
          ("P0".data ++ ([e] ++ (dsh ++ (d1 ++ '-' :: d2)))) = true := by
        show ¬ (('P' == 'P') && (('0' == '0') && (('-' == e) &&
          List.isPrefixOf ([] : Str) (dsh ++ (d1 ++ '-' :: d2))))) = true
        simp [hda]
      rw [stripAndSub_nosub (cand_nospace "P0".data (by decide) hedn hdshn hd1n hd2n) h1
        (not_eq_true_of_eq_false rfl) (not_eq_true_of_eq_false rfl)
        (not_eq_true_of_eq_false rfl) (not_eq_true_of_eq_false rfl)]
      exact reParse_some_of_tail ['P'] ('0' :: ([e] ++ (dsh ++ (d1 ++ '-' :: d2))))
        (by decide) (by decide)
        ⟨[], ['0'], [], [e], dsh ++ (d1 ++ '-' :: d2), Or.inl rfl, Or.inl rfl, by decide,
          by decide, by decide, by simp [he], by simp only [List.length_singleton]; omega,
          by simp only [List.length_singleton]; omega, by simp⟩
  · -- token `PO`
    rw [stripAndSub_nosub (cand_nospace "PO".data (by decide) hedn hdshn hd1n hd2n)
      (not_eq_true_of_eq_false rfl) (not_eq_true_of_eq_false rfl)
      (not_eq_true_of_eq_false rfl) (not_eq_true_of_eq_false rfl)
      (not_eq_true_of_eq_false rfl)]
    exact cand_tail_parses "PO".data (by decide) (by decide) hed hdsh hd1 h1a h1b hd2 h2a h2b
  · -- token `SPO`
    rw [stripAndSub_nosub (cand_nospace "SPO".data (by decide) hedn hdshn hd1n hd2n)
      (not_eq_true_of_eq_false rfl) (not_eq_true_of_eq_false rfl)
      (not_eq_true_of_eq_false rfl) (not_eq_true_of_eq_false rfl)
      (not_eq_true_of_eq_false rfl)]
    exact cand_tail_parses "SPO".data (by decide) (by decide) hed hdsh hd1 h1a h1b hd2 h2a h2b
  · -- token `RNWS`
    rw [stripAndSub_nosub (cand_nospace "RNWS".data (by decide) hedn hdshn hd1n hd2n)
      (not_eq_true_of_eq_false rfl) (not_eq_true_of_eq_false rfl)
      (not_eq_true_of_eq_false rfl) (not_eq_true_of_eq_false rfl)
      (not_eq_true_of_eq_false rfl)]
    exact cand_tail_parses "RNWS".data (by decide) (by decide) hed hdsh hd1 h1a h1b hd2 h2a h2b
  · -- token `SGR`
    rw [stripAndSub_nosub (cand_nospace "SGR".data (by decide) hedn hdshn hd1n hd2n)
      (not_eq_true_of_eq_false rfl) (not_eq_true_of_eq_false rfl)
      (not_eq_true_of_eq_false rfl) (not_eq_true_of_eq_false rfl)
      (not_eq_true_of_eq_false rfl)]
    exact cand_tail_parses "SGR".data (by decide) (by decide) hed hdsh hd1 h1a h1b hd2 h2a h2b
  · -- token `SSR`
    rw [stripAndSub_nosub (cand_nospace "SSR".data (by decide) hedn hdshn hd1n hd2n)
      (not_eq_true_of_eq_false rfl) (not_eq_true_of_eq_false rfl)
      (not_eq_true_of_eq_false rfl) (not_eq_true_of_eq_false rfl)
      (not_eq_true_of_eq_false rfl)]
    exact cand_tail_parses "SSR".data (by decide) (by decide) hed hdsh hd1 h1a h1b hd2 h2a h2b

/-- Claim C4: for every string in the language of the line-151 candidate
discovery pattern (as uppercased by line 152), the output of
`autocorrect_match` matches the canonical form `^[A-Z]+-\d{2}-\d{4}$`, or the
string is returned unchanged when the re-parse step after whitespace stripping
and prefix substitution fails to match.  (In fact the re-parse never fails on
such inputs, so the first disjunct always holds.) -/
theorem autocorrect_match_canonical {m : Str} (h : UCand m) :
    isCanonical (autocorrect_match m) = true ∨ autocorrect_match m = m := by
  obtain ⟨g, hg⟩ := stripAndSub_cand_parses h
  exact Or.inl (auto_canonical_of_some hg)

set_option maxRecDepth 20000 in
theorem autocorrect_match_canonical_witness :
    UCand "PO-12-3456".data ∧
      (isCanonical (autocorrect_match "PO-12-3456".data) = true ∨
        autocorrect_match "PO-12-3456".data = "PO-12-3456".data) := by
  have hu : UCand "PO-12-3456".data :=
    ⟨"PO".data, [], [], ['-'], "12".data, "3456".data, by decide, Or.inl rfl, Or.inl rfl,
      Or.inr rfl, by decide, by decide, by decide, by decide, by decide, by decide, by decide⟩
  exact ⟨hu, autocorrect_match_canonical hu⟩

/-! ## Quarantine and the never-lost property: claim C1 -/

theorem move_exists_dst (fs : FS) (src dst : Str) :
    (fs.move src dst).exists? dst = true := by
  show ((fs.move src dst).files).contains dst = true
  rw [contains_iff_mem]
  exact List.mem_cons_self _ _

theorem quarantine_exists (fs : FS) (path : Str) (h : fs.exists? path = true) :
    (quarantine fs path).exists? (pathJoin errorDir (basename path)) = true := by
  unfold quarantine
  rw [if_pos h]
  exact move_exists_dst _ path _

theorem quarantine_noop (fs : FS) (path : Str) (h : fs.exists? path = false) :
    quarantine fs path = fs := by
  unfold quarantine
  rw [if_neg (not_eq_true_of_eq_false h)]

set_option maxRecDepth 20000 in
/-- Claim C1 fails as stated: when the exception strikes at the
`shutil.move` of line 169 -- after the `os.rename` of line 168 has already
happened -- the file sits in its original directory under the new
code-derived name.  The handler's `os.path.exists(path)` guard (line 176)
sees that the original path is gone and does nothing, so the file is at
none of the three claimed locations: not at its original path, not under
`final-output`, and not at `ERROR/<original basename>`. -/
theorem quarantine_never_lost_counterexample :
    (process_pdf ⟨["in/a.pdf".data], [finalOutputDir]⟩ "in/a.pdf".data
        "PO1-2".data FailPoint.atMove).files = ["in/PO-21-0002.pdf".data] ∧
    (process_pdf ⟨["in/a.pdf".data], [finalOutputDir]⟩ "in/a.pdf".data
        "PO1-2".data FailPoint.atMove).exists? "in/a.pdf".data = false ∧
    (process_pdf ⟨["in/a.pdf".data], [finalOutputDir]⟩ "in/a.pdf".data
        "PO1-2".data FailPoint.atMove).exists?
      (pathJoin errorDir (basename "in/a.pdf".data)) = false ∧
    (process_pdf ⟨["in/a.pdf".data], [finalOutputDir]⟩ "in/a.pdf".data
        "PO1-2".data FailPoint.atMove).files.all
      (fun p => !((finalOutputDir ++ ['/']).isPrefixOf p)) = true := by
  decide

/-- Claim C1, amended: for every filesystem state, lowercase-`.pdf` path
present in it, extracted text, and failure point, the file is never lost:
after `process_pdf` finishes (handler included) it exists at one of its
original path, `ERROR/<original basename>`, `final-output/<computed name>`,
or -- when the failure strikes between the line-168 rename and the line-169
move -- `<original directory>/<computed name>`; the original three-location
claim omits this last stranded-rename location. -/
theorem process_pdf_never_lost (fs : FS) (path text : Str) (fp : FailPoint)
    (hp : ".pdf".data.isSuffixOf path = true) (hf : fs.exists? path = true) :
    (process_pdf fs path text fp).exists? path = true ∨
    (process_pdf fs path text fp).exists? (pathJoin errorDir (basename path)) = true ∨
    (process_pdf fs path text fp).exists?
      (pathJoin finalOutputDir (classifyName fs text path)) = true ∨
    (process_pdf fs path text fp).exists?
      (pathJoin (dirname path) (classifyName fs text path)) = true := by
  by_cases hms : ((findallCand text).map (List.map Char.toUpper)).isEmpty = true
  · have hcn : classifyName fs text path = basename path := by
      simp only [classifyName]
      rw [if_pos hms]
    rw [hcn]
    simp only [process_pdf]
    rw [if_pos hp]
    cases fp with
    | atExtract =>
      rw [if_pos (show FailPoint.atExtract = FailPoint.atExtract from rfl)]
      exact Or.inr (Or.inl (quarantine_exists fs path hf))
    | atRename =>
      rw [if_neg (by decide), if_pos hms, if_neg (by decide)]
      exact Or.inr (Or.inr (Or.inl (move_exists_dst fs path _)))
    | atMove =>
      rw [if_neg (by decide), if_pos hms,
        if_pos (show FailPoint.atMove = FailPoint.atMove from rfl)]
      exact Or.inr (Or.inl (quarantine_exists fs path hf))
    | noFail =>
      rw [if_neg (by decide), if_pos hms, if_neg (by decide)]
      exact Or.inr (Or.inr (Or.inl (move_exists_dst fs path _)))
  · have hcn : classifyName fs text path
        = probeName fs (mkFinalName (sortStrs
            (((findallCand text).map (List.map Char.toUpper)).map autocorrect_match))) := by
      simp only [classifyName]
      rw [if_neg hms]
    rw [hcn]
    simp only [process_pdf]
    rw [if_pos hp]
    cases fp with
    | atExtract =>
      rw [if_pos (show FailPoint.atExtract = FailPoint.atExtract from rfl)]
      exact Or.inr (Or.inl (quarantine_exists fs path hf))
    | atRename =>
      rw [if_neg (by decide), if_neg hms,
        if_pos (show FailPoint.atRename = FailPoint.atRename from rfl)]
      exact Or.inr (Or.inl (quarantine_exists fs path hf))
    | atMove =>
      rw [if_neg (by decide), if_neg hms, if_neg (by decide),
        if_pos (show FailPoint.atMove = FailPoint.atMove from rfl)]
      cases hq : (fs.move path (pathJoin (dirname path)
          (probeName fs (mkFinalName (sortStrs
            (((findallCand text).map (List.map Char.toUpper)).map
              autocorrect_match)))))).exists? path with
      | true => exact Or.inr (Or.inl (quarantine_exists _ path hq))
      | false =>
        rw [quarantine_noop _ _ hq]
        exact Or.inr (Or.inr (Or.inr (move_exists_dst fs path _)))
    | noFail =>
      rw [if_neg (by decide), if_neg hms, if_neg (by decide), if_neg (by decide)]
      exact Or.inr (Or.inr (Or.inl (move_exists_dst _ _ _)))

set_option maxRecDepth 20000 in
theorem process_pdf_never_lost_witness :
    ".pdf".data.isSuffixOf "in/a.pdf".data = true ∧
    (FS.exists? ⟨["in/a.pdf".data], [finalOutputDir]⟩ "in/a.pdf".data = true) ∧
    ((process_pdf ⟨["in/a.pdf".data], [finalOutputDir]⟩ "in/a.pdf".data
        "PO1-2".data FailPoint.atMove).exists? "in/a.pdf".data = true ∨
      (process_pdf ⟨["in/a.pdf".data], [finalOutputDir]⟩ "in/a.pdf".data
        "PO1-2".data FailPoint.atMove).exists?
          (pathJoin errorDir (basename "in/a.pdf".data)) = true ∨
      (process_pdf ⟨["in/a.pdf".data], [finalOutputDir]⟩ "in/a.pdf".data
        "PO1-2".data FailPoint.atMove).exists?
          (pathJoin finalOutputDir
            (classifyName ⟨["in/a.pdf".data], [finalOutputDir]⟩ "PO1-2".data
              "in/a.pdf".data)) = true ∨
      (process_pdf ⟨["in/a.pdf".data], [finalOutputDir]⟩ "in/a.pdf".data
        "PO1-2".data FailPoint.atMove).exists?
          (pathJoin (dirname "in/a.pdf".data)
            (classifyName ⟨["in/a.pdf".data], [finalOutputDir]⟩ "PO1-2".data
              "in/a.pdf".data)) = true) :=
  ⟨by decide, by decide,
    process_pdf_never_lost ⟨["in/a.pdf".data], [finalOutputDir]⟩ "in/a.pdf".data
      "PO1-2".data FailPoint.atMove (by decide) (by decide)⟩
